import Mathlib

/-!
Verification development for the SmartSync folder synchronizer
(`src/sync.py`).

The filesystem is shallowly embedded as a finite tree of named
directories and named regular files.  A relative path is a list of name
components; `pathString` renders it with the POSIX separator `/`, which
is the string form that the Python code manipulates (`os.path.relpath`,
`os.path.join`).  OS-level primitives are embedded as follows:

* `os.path.exists`   -> `FSTree.existsPath` (true for files and directories);
* `os.path.getmtime` -> the `mtime` field of `FileData` (directory
  timestamps are not modelled; the one code path that would read one is
  mapped to an error, see `loop_files`);
* `shutil.copy2`     -> copying the full `FileData` (bytes plus
  modification time) via `FSTree.setFile`;
* `os.makedirs(..., exist_ok=True)` -> `FSTree.mkdirs`;
* fallible OS calls (missing source, path/type clashes) -> `Option` /
  `Except` results.

Wall-clock readings (`time.time()`, `datetime.now()`) enter the model as
explicit parameters (`logName`, `elapsed`, `logMtime`).
-/

/-- Modification time plus content of a regular file.  `shutil.copy2`
preserves both, so a copy transports the whole `FileData`. -/
structure FileData where
  mtime : Nat
  content : String
deriving DecidableEq, Repr

/-- A relative path, as the list of its name components. -/
abbrev RelPath := List String

/-- Render a relative path with the POSIX separator, the string form the
Python code computes via `os.path.relpath`. -/
def pathString (p : RelPath) : String := String.intercalate "/" p

/-- A directory: named subdirectories plus named regular files. -/
inductive FSTree where
  | node (dirs : List (String × FSTree)) (files : List (String × FileData)) : FSTree

/-- Python `s.startswith(pre)`: embedded as a prefix test on the
character sequences (identical semantics, kernel-computable). -/
def strStartsWith (s pre : String) : Bool := pre.data.isPrefixOf s.data

/-- Python `s.endswith(suf)`: embedded as a suffix test on the character
sequences (identical semantics, kernel-computable). -/
def strEndsWith (s suf : String) : Bool := suf.data.isSuffixOf s.data

/-- `os.path.join(s, "")`: appends the separator unless `s` already ends
with one or is empty. -/
def joinTrailingSep (s : String) : String :=
  if s == "" then "" else if strEndsWith s "/" then s else s ++ "/"

/-- `os.path.join(root, rel)` for a relative `rel`, as used when the code
builds source/target path strings. -/
def osJoin (root rel : String) : String :=
  if root == "" then rel
  else if strEndsWith root "/" then root ++ rel
  else root ++ "/" ++ rel

/-- The per-run filter configuration (`ignore_files`, `ignore_extensions`,
`ignore_hidden`), after the `or []` normalisation done by `walk_folder`. -/
structure IgnoreSpec where
  ignore_files : List String
  ignore_extensions : List String
  ignore_hidden : Bool
deriving DecidableEq, Repr

/-- The directory-prune test of `walk_folder` (src/sync.py lines 28-40):
a directory named `dname` at relative path `relDirPath` survives iff it is
not hidden (when hidden exclusion is on) and no ignore entry equals its
relative path or is a trailing-separator prefix of it. -/
def dir_visible (spec : IgnoreSpec) (relDirPath dname : String) : Bool :=
  !(spec.ignore_hidden && strStartsWith dname ".") &&
  !(spec.ignore_files.any (fun ign =>
      relDirPath == ign || strStartsWith relDirPath (joinTrailingSep ign)))

/-- The file test of `walk_folder` (src/sync.py lines 42-52): a file named
`fname` at relative path `relPath` is listed iff it is not hidden (when
hidden exclusion is on), no ignore entry equals its relative path exactly,
and no ignore extension is a suffix of its relative path. -/
def file_visible (spec : IgnoreSpec) (relPath fname : String) : Bool :=
  !(spec.ignore_hidden && strStartsWith fname ".") &&
  !(spec.ignore_files.any (fun ign => relPath == ign)) &&
  !(spec.ignore_extensions.any (fun ext => strEndsWith relPath ext))

mutual
/-- The filtered walk of `walk_folder` (src/sync.py lines 27-56) below a
node whose relative path is `pre`: the files of the current directory
(in order) first, then the contents of each surviving subdirectory,
exactly as `os.walk` enumerates top-down with pruning.  Paths returned
are relative to the walked node. -/
def walkTree (spec : IgnoreSpec) (pre : RelPath) : FSTree → List RelPath
  | .node dirs files =>
    (files.filter (fun e => file_visible spec (pathString (pre ++ [e.1])) e.1)).map
      (fun e => [e.1])
    ++ walkDirs spec pre dirs

/-- Walks the subdirectory list of a node, skipping pruned directories. -/
def walkDirs (spec : IgnoreSpec) (pre : RelPath) : List (String × FSTree) → List RelPath
  | [] => []
  | e :: rest =>
    (if dir_visible spec (pathString (pre ++ [e.1])) e.1 then
      (walkTree spec (pre ++ [e.1]) e.2).map (fun s => e.1 :: s)
    else [])
    ++ walkDirs spec pre rest
end

/-- `walk_folder(folder, ignore_files, ignore_extensions, ignore_hidden)`:
the list of visible file paths in string form.  The `Option` arguments
mirror the Python defaults; `walk_folder` normalises them with `or []`. -/
def walk_folder (t : FSTree) (ignore_files ignore_extensions : Option (List String))
    (ignore_hidden : Bool) : List String :=
  (walkTree ⟨ignore_files.getD [], ignore_extensions.getD [], ignore_hidden⟩ [] t).map
    pathString

/-- Resolve a relative path to a regular file, component by component
(how the OS resolves the strings `os.path.join(root, file)`). -/
def FSTree.lookupFile : FSTree → RelPath → Option FileData
  | _, [] => none
  | .node _ files, [f] => (files.find? (fun e => e.1 == f)).map Prod.snd
  | .node dirs _, d :: f :: rest =>
    match dirs.find? (fun e => e.1 == d) with
    | some e => e.2.lookupFile (f :: rest)
    | none => none

/-- Resolve a relative path to a directory (the root `[]` always exists). -/
def FSTree.isDirAt : FSTree → RelPath → Bool
  | _, [] => true
  | .node dirs _, d :: rest =>
    match dirs.find? (fun e => e.1 == d) with
    | some e => e.2.isDirAt rest
    | none => false

/-- `os.path.exists(join(root, p))`: true for directories and files alike. -/
def FSTree.existsPath (t : FSTree) (p : RelPath) : Bool :=
  t.isDirAt p || (t.lookupFile p).isSome

/-- Replace every subdirectory entry named `n` by the tree `t`. -/
def replaceDirEntry (dirs : List (String × FSTree)) (n : String) (t : FSTree) :
    List (String × FSTree) :=
  dirs.map (fun e => if e.1 == n then (n, t) else e)

/-- Overwrite the file entry named `n` (or append it when absent). -/
def setFileEntry (files : List (String × FileData)) (n : String) (d : FileData) :
    List (String × FileData) :=
  if (files.find? (fun e => e.1 == n)).isSome then
    files.map (fun e => if e.1 == n then (n, d) else e)
  else files ++ [(n, d)]

/-- `os.makedirs(dirname, exist_ok=True)` followed by `shutil.copy2`:
creates the missing intermediate directories and writes the file data at
`p`.  Returns `none` where the OS would raise: an empty path, a directory
already occupying the file position, or a file occupying an intermediate
directory position. -/
def FSTree.setFile : FSTree → RelPath → FileData → Option FSTree
  | _, [], _ => none
  | .node dirs files, [f], d =>
    if (dirs.find? (fun e => e.1 == f)).isSome then none
    else some (.node dirs (setFileEntry files f d))
  | .node dirs files, p₁ :: p₂ :: rest, d =>
    match dirs.find? (fun e => e.1 == p₁) with
    | some e =>
      (e.2.setFile (p₂ :: rest) d).map (fun t₂ => FSTree.node (replaceDirEntry dirs p₁ t₂) files)
    | none =>
      if (files.find? (fun e => e.1 == p₁)).isSome then none
      else
        ((FSTree.node [] []).setFile (p₂ :: rest) d).map
          (fun t₂ => FSTree.node (dirs ++ [(p₁, t₂)]) files)

/-- `os.makedirs(p, exist_ok=True)`: creates the directory chain, failing
(`none`) when a regular file occupies one of the components. -/
def FSTree.mkdirs : FSTree → RelPath → Option FSTree
  | t, [] => some t
  | .node dirs files, p₁ :: rest =>
    match dirs.find? (fun e => e.1 == p₁) with
    | some e =>
      (e.2.mkdirs rest).map (fun t₂ => FSTree.node (replaceDirEntry dirs p₁ t₂) files)
    | none =>
      if (files.find? (fun e => e.1 == p₁)).isSome then none
      else
        ((FSTree.node [] []).mkdirs rest).map
          (fun t₂ => FSTree.node (dirs ++ [(p₁, t₂)]) files)

mutual
/-- Wellformedness of a directory tree: at every level the directory and
file names are pairwise distinct (as on a real filesystem). -/
def FSTree.wf : FSTree → Bool
  | .node dirs files =>
    decide ((dirs.map Prod.fst ++ files.map Prod.fst).Nodup) && wfDirs dirs

/-- Wellformedness of every subtree of a subdirectory list. -/
def wfDirs : List (String × FSTree) → Bool
  | [] => true
  | e :: rest => e.2.wf && wfDirs rest
end

mutual
/-- The unfiltered directory enumeration used by `loop_folder`
(src/sync.py lines 91-96): `os.walk` yields the directories of the
current level first, then descends into each in order.  No ignore
arguments exist: this walk deliberately ignores the path filter. -/
def allDirsTree : FSTree → List RelPath
  | .node dirs _ => dirs.map (fun e => [e.1]) ++ allDirsRest dirs

/-- Depth-first continuation of `allDirsTree` over a subdirectory list. -/
def allDirsRest : List (String × FSTree) → List RelPath
  | [] => []
  | e :: rest => (allDirsTree e.2).map (fun s => e.1 :: s) ++ allDirsRest rest
end

/-- One step of `loop_folder` (src/sync.py lines 92-96): skip when the
target path exists (as directory or file), otherwise create the chain. -/
def mirrorStep (tgt : FSTree) (d : RelPath) : Option FSTree :=
  if tgt.existsPath d then some tgt else tgt.mkdirs d

/-- `loop_folder(rootA, rootB)` (src/sync.py lines 82-96): walks the
source's directories top-down and creates each one missing on the target. -/
def loop_folder (src tgt : FSTree) : Option FSTree :=
  (allDirsTree src).foldlM mirrorStep tgt

/-- `loop_files(files, rootA, rootB)` (src/sync.py lines 119-151): walks
the source file list and copies each file that is missing on the target
(reason `"new"`), or - when `sync_most_recent` is set - whose source
modification time is strictly greater than the target's (reason
`"more recent"`).  Every iteration reads the source file (at the latest
through `os.path.getsize` for the progress bar), so a source path that
does not resolve to a regular file is an error.  A target path that
exists as a directory is an error in the recency branch (the code would
read the directory's timestamp and copy into the directory, which the
model does not represent).  Returns the decisions in traversal order and
the final target tree. -/
def loop_files (sync_most_recent : Bool) (src : FSTree) :
    List RelPath → FSTree → Except String (List (RelPath × String) × FSTree)
  | [], tgt => .ok ([], tgt)
  | f :: rest, tgt =>
    match src.lookupFile f with
    | none => .error (pathString f)
    | some ds =>
      if tgt.existsPath f then
        if sync_most_recent then
          match tgt.lookupFile f with
          | none => .error (pathString f)
          | some dt =>
            if decide (dt.mtime < ds.mtime) then
              match tgt.setFile f ds with
              | none => .error (pathString f)
              | some tgt₂ =>
                (loop_files sync_most_recent src rest tgt₂).map
                  (fun r => ((f, "more recent") :: r.1, r.2))
            else loop_files sync_most_recent src rest tgt
        else loop_files sync_most_recent src rest tgt
      else
        match tgt.setFile f ds with
        | none => .error (pathString f)
        | some tgt₂ =>
          (loop_files sync_most_recent src rest tgt₂).map
            (fun r => ((f, "new") :: r.1, r.2))

/-- Python `repr` of a string, as interpolated into the log f-strings
(no escaping is modelled; the inputs used here contain no quotes). -/
def pyStrRepr (s : String) : String := "'" ++ s ++ "'"

/-- Python `repr` of a list of strings. -/
def pyListRepr (l : List String) : String :=
  "[" ++ String.intercalate ", " (l.map pyStrRepr) ++ "]"

/-- Python `repr` of an optional list, `None` when absent. -/
def pyOptListRepr : Option (List String) → String
  | none => "None"
  | some l => pyListRepr l

/-- Python `repr` of a boolean (`True` / `False`). -/
def pyBoolRepr (b : Bool) : String := if b then "True" else "False"

/-- One decision line of the log (src/sync.py lines 188-195):
`Because of '<status>': <source path> ==> <destination path>`. -/
def decisionLine (rootSrc rootDst : String) (d : RelPath × String) : String :=
  "Because of '" ++ d.2 ++ "': " ++ osJoin rootSrc (pathString d.1) ++ " ==> " ++
    osJoin rootDst (pathString d.1) ++ "\n"

/-- The chunks written to the run log, in order (src/sync.py lines
177-195): the parameter header, the single combined totals line, then one
line per decision, A-to-B first. -/
def logChunks (folderA folderB : String) (sync_most_recent : Bool)
    (ignore_files ignore_extensions : Option (List String)) (ignore_hidden : Bool)
    (nFiles nCopied : Nat) (elapsed : String)
    (decAB decBA : List (RelPath × String)) : List String :=
  ["Parameters:\n",
   "  folderA: " ++ folderA ++ "\n",
   "  folderB: " ++ folderB ++ "\n",
   "  sync_most_recent: " ++ pyBoolRepr sync_most_recent ++ "\n",
   "  ignore_files: " ++ pyOptListRepr ignore_files ++ "\n",
   "  ignore_extensions: " ++ pyOptListRepr ignore_extensions ++ "\n",
   "  ignore_hidden: " ++ pyBoolRepr ignore_hidden ++ "\n\n",
   "Synced " ++ toString nFiles ++ " files (" ++ toString nCopied ++
     " copied) between " ++ folderA ++ " and " ++ folderB ++ " in " ++ elapsed ++
     " seconds.\n\n"]
  ++ decAB.map (decisionLine folderA folderB)
  ++ decBA.map (decisionLine folderB folderA)

/-- The full text of the run-log artifact. -/
def logText (folderA folderB : String) (sync_most_recent : Bool)
    (ignore_files ignore_extensions : Option (List String)) (ignore_hidden : Bool)
    (nFiles nCopied : Nat) (elapsed : String)
    (decAB decBA : List (RelPath × String)) : String :=
  String.join (logChunks folderA folderB sync_most_recent ignore_files
    ignore_extensions ignore_hidden nFiles nCopied elapsed decAB decBA)

/-- The reserved log path `.sync_logs/<logName>` under a root. -/
def logPath (logName : String) : RelPath := [".sync_logs", logName]

/-- Everything a completed `sync_folders` run determines: the two filtered
file lists, the two decision lists, the two final trees (log file
included) and the log text. -/
structure SyncResult where
  filesA : List RelPath
  filesB : List RelPath
  decAB : List (RelPath × String)
  decBA : List (RelPath × String)
  fsA : FSTree
  fsB : FSTree
  log : String

/-- `sync_folders` (src/sync.py lines 59-206): mirrors the directory
structures both ways, walks both filtered file lists, runs the A-to-B
copy pass then the B-to-A pass (the B pass reads the B tree as already
mutated by the A pass, but uses the file list walked beforehand), then
writes the log under `.sync_logs` of both roots with identical content
and timestamp (`shutil.copy2` of the artifact).  `logName` stands for the
timestamp-derived file name, `elapsed` for the formatted wall-clock
duration and `logMtime` for the artifact's modification time. -/
def sync_folders (sync_most_recent : Bool)
    (ignore_files ignore_extensions : Option (List String)) (ignore_hidden : Bool)
    (folderA folderB logName elapsed : String) (logMtime : Nat)
    (fsA fsB : FSTree) : Except String SyncResult :=
  match loop_folder fsA fsB with
  | none => .error "makedirs"
  | some fsB₁ =>
    match loop_folder fsB₁ fsA with
    | none => .error "makedirs"
    | some fsA₁ =>
      let spec : IgnoreSpec :=
        ⟨ignore_files.getD [], ignore_extensions.getD [], ignore_hidden⟩
      let filesA := walkTree spec [] fsA₁
      let filesB := walkTree spec [] fsB₁
      match loop_files sync_most_recent fsA₁ filesA fsB₁ with
      | .error e => .error e
      | .ok (decAB, fsB₂) =>
        match loop_files sync_most_recent fsB₂ filesB fsA₁ with
        | .error e => .error e
        | .ok (decBA, fsA₂) =>
          let lg := logText folderA folderB sync_most_recent ignore_files
            ignore_extensions ignore_hidden (filesA.length + filesB.length)
            (decAB.length + decBA.length) elapsed decAB decBA
          match fsA₂.setFile (logPath logName) ⟨logMtime, lg⟩ with
          | none => .error "log"
          | some fsA₃ =>
            match fsB₂.setFile (logPath logName) ⟨logMtime, lg⟩ with
            | none => .error "log"
            | some fsB₃ => .ok ⟨filesA, filesB, decAB, decBA, fsA₃, fsB₃, lg⟩

/-- `argparse` semantics of an `action="store_true"` flag: stores `True`
when the flag is present on the command line, the declared default
otherwise. -/
def storeTrueParse (present : Bool) (dflt : Bool) : Bool :=
  if present then true else dflt

/-- The command-line inputs of `__main__` (src/sync.py lines 217-244):
two positional roots, two boolean flags given by their presence, and two
optional string lists. -/
structure CliArgs where
  A : String
  B : String
  syncMostRecentFlag : Bool
  ignoreFilesArg : Option (List String)
  ignoreExtensionsArg : Option (List String)
  ignoreHiddenFlag : Bool

/-- The ignore-files list built by `__main__` (src/sync.py lines
255-257): `args.ignore_files + [".sync_logs/"] if args.ignore_files else
[".sync_logs/"]` - a `None` or empty caller list is replaced wholesale,
otherwise the reserved entry is appended. -/
def cliIgnoreFiles : Option (List String) → List String
  | none => [".sync_logs/"]
  | some l => if l.isEmpty then [".sync_logs/"] else l ++ [".sync_logs/"]

/-- Outcome of a program invocation: an early `exit(code)` on a failed
precondition, or a performed run. -/
inductive MainOutcome where
  | exited : Nat → MainOutcome
  | ran : Except String SyncResult → MainOutcome

/-- The `__main__` entry point (src/sync.py lines 246-274): checks that
both roots exist (their trees are `some`), exiting with status 1 before
doing anything otherwise, then calls `sync_folders` with the massaged
arguments.  The flag defaults are `False` for `--sync_most_recent` and
`True` for `--ignore_hidden` (both are `store_true` flags). -/
def mainSync (args : CliArgs) (fsA fsB : Option FSTree)
    (logName elapsed : String) (logMtime : Nat) : MainOutcome :=
  match fsA with
  | none => .exited 1
  | some a =>
    match fsB with
    | none => .exited 1
    | some b =>
      .ran (sync_folders (storeTrueParse args.syncMostRecentFlag false)
        (some (cliIgnoreFiles args.ignoreFilesArg)) args.ignoreExtensionsArg
        (storeTrueParse args.ignoreHiddenFlag true)
        args.A args.B logName elapsed logMtime a b)

/-- Path-level visibility, relative to the prefix `pre`: every ancestor
directory passes the `walk_folder` directory test and the file itself
passes the file test.  This predicate depends only on the path, not on
the tree, and characterises membership in `walkTree` together with
`lookupFile`. -/
def visibleFrom (spec : IgnoreSpec) : RelPath → RelPath → Bool
  | _, [] => false
  | pre, [f] => file_visible spec (pathString (pre ++ [f])) f
  | pre, d :: f :: rest =>
    dir_visible spec (pathString (pre ++ [d])) d && visibleFrom spec (pre ++ [d]) (f :: rest)

/-- All nonempty strict prefixes of a path - its ancestor directories. -/
def properAncestors : RelPath → List RelPath
  | [] => []
  | [_] => []
  | a :: b :: rest => [a] :: (properAncestors (b :: rest)).map (fun s => a :: s)

/-- The ignore-match predicate exactly as claim C3 words it: the file's
relative path matches an ignore-extension suffix, or an ignore-files
entry either exactly or as a subtree prefix (the entry, with the
separator appended as the filter itself does, being a prefix of the
path), or - with hidden exclusion on - its own name or an ancestor
directory's name starts with the hidden marker. -/
def claimedIgnoreMatchC3 (igFiles igExts : List String) (igHidden : Bool) (p : RelPath) : Bool :=
  igExts.any (fun ext => strEndsWith (pathString p) ext) ||
  igFiles.any (fun ign =>
    pathString p == ign || strStartsWith (pathString p) (joinTrailingSep ign)) ||
  (igHidden && p.any (fun c => strStartsWith c "."))

/-- The ignore-match predicate that the code actually enforces: exact
ignore-entry match of the file path itself, ignore-entry match (exact or
separator-prefix) of some ancestor directory's path, extension suffix
match, or a hidden component.  Unlike `claimedIgnoreMatchC3`, an entry
with a trailing separator only matches below, never at, the directory it
denotes. -/
def amendedIgnoreMatch (igFiles igExts : List String) (igHidden : Bool) (p : RelPath) : Bool :=
  igExts.any (fun ext => strEndsWith (pathString p) ext) ||
  igFiles.any (fun ign => pathString p == ign) ||
  (properAncestors p).any (fun a =>
    igFiles.any (fun ign =>
      pathString a == ign || strStartsWith (pathString a) (joinTrailingSep ign))) ||
  (igHidden && p.any (fun c => strStartsWith c "."))

/-- The condition under which `loop_files` copies the file at `q` when
the target still is in state `tgt`: the target path does not exist, or
recency sync is on and the source file is strictly newer than the
target file. -/
def copyCond (sync_most_recent : Bool) (src tgt : FSTree) (q : RelPath) : Bool :=
  !tgt.existsPath q ||
  (sync_most_recent &&
    (match src.lookupFile q, tgt.lookupFile q with
     | some ds, some dt => decide (dt.mtime < ds.mtime)
     | _, _ => false))

/-- Substring containment on the character sequences (used to state what
the log artifact does or does not contain). -/
def strContainsSub (s sub : String) : Bool :=
  (s.data.tails).any (fun t => sub.data.isPrefixOf t)

/-- The per-decision log line exactly as claim C7 words it:
`because of '<reason>': <source path> ==> <destination path>`. -/
def claimedC7Line (rsn srcPath dstPath : String) : String :=
  "because of '" ++ rsn ++ "': " ++ srcPath ++ " ==> " ++ dstPath

/-! ### Association-list lemmas -/

theorem findKey_cons_hit {α : Type} {e : String × α} {l : List (String × α)} {n : String}
    (h : e.1 = n) : (e :: l).find? (fun x => x.1 == n) = some e := by
  simp [List.find?_cons, h]

theorem findKey_cons_miss {α : Type} {e : String × α} {l : List (String × α)} {n : String}
    (h : e.1 ≠ n) : (e :: l).find? (fun x => x.1 == n) = l.find? (fun x => x.1 == n) := by
  have hb : (e.1 == n) = false := by simpa using h
  simp [List.find?_cons, hb]

theorem findKey_eq {α : Type} {l : List (String × α)} {n : String} {e : String × α}
    (h : l.find? (fun x => x.1 == n) = some e) : e.1 = n ∧ e ∈ l :=
  ⟨by simpa using List.find?_some h, List.mem_of_find?_eq_some h⟩

theorem findKey_isSome {α : Type} {l : List (String × α)} {n : String} :
    (l.find? (fun x => x.1 == n)).isSome = true ↔ ∃ v, (n, v) ∈ l := by
  rw [List.find?_isSome]
  constructor
  · rintro ⟨⟨a, v⟩, hm, hp⟩
    have ha : a = n := by simpa using hp
    exact ⟨v, by simpa [ha] using hm⟩
  · rintro ⟨v, hm⟩
    exact ⟨(n, v), hm, by simp⟩

theorem findKey_nodup {α : Type} {l : List (String × α)} {n : String} {v : α}
    (hnd : (l.map Prod.fst).Nodup) (hm : (n, v) ∈ l) :
    l.find? (fun x => x.1 == n) = some (n, v) := by
  induction l with
  | nil => cases hm
  | cons e rest ih =>
    simp only [List.map_cons, List.nodup_cons] at hnd
    rcases List.mem_cons.mp hm with he | hrest
    · subst he; exact findKey_cons_hit rfl
    · have hne : e.1 ≠ n := fun h =>
        hnd.1 (h ▸ List.mem_map.mpr ⟨(n, v), hrest, rfl⟩)
      rw [findKey_cons_miss hne]
      exact ih hnd.2 hrest

theorem findKey_mapReplace {α : Type} (l : List (String × α)) (n : String) (d : α)
    (g : String) :
    (l.map (fun e => if e.1 == n then (n, d) else e)).find? (fun x => x.1 == g) =
      if g = n then (l.find? (fun x => x.1 == n)).map (fun _ => (n, d))
      else l.find? (fun x => x.1 == g) := by
  induction l with
  | nil => by_cases hgn : g = n <;> simp [hgn]
  | cons e rest ih =>
    simp only [List.map_cons]
    by_cases hen : e.1 = n
    · rw [if_pos (by simpa using hen)]
      by_cases hgn : g = n
      · rw [if_pos hgn, findKey_cons_hit (show (n, d).1 = g from hgn.symm),
          findKey_cons_hit hen]
        rfl
      · rw [if_neg hgn, findKey_cons_miss (show (n, d).1 ≠ g from Ne.symm hgn),
          findKey_cons_miss (show e.1 ≠ g from fun h => hgn ((hen.symm.trans h).symm)),
          ih, if_neg hgn]
    · rw [if_neg (by simpa using hen)]
      by_cases hgn : g = n
      · rw [if_pos hgn, findKey_cons_miss (show e.1 ≠ g from fun h => hen (h.trans hgn)),
          findKey_cons_miss hen, ih, if_pos hgn]
      · by_cases heg : e.1 = g
        · rw [if_neg hgn, findKey_cons_hit heg, findKey_cons_hit heg]
        · rw [if_neg hgn, findKey_cons_miss heg, findKey_cons_miss heg, ih, if_neg hgn]

theorem mapFst_mapReplace {α : Type} (l : List (String × α)) (n : String) (d : α) :
    (l.map (fun e => if e.1 == n then (n, d) else e)).map Prod.fst = l.map Prod.fst := by
  induction l with
  | nil => rfl
  | cons e rest ih =>
    simp only [List.map_cons]
    by_cases hen : e.1 = n
    · rw [if_pos (by simpa using hen), ih]
      simp [hen]
    · rw [if_neg (by simpa using hen), ih]

theorem findKey_replaceDirEntry (dirs : List (String × FSTree)) (n : String) (t : FSTree)
    (g : String) :
    (replaceDirEntry dirs n t).find? (fun x => x.1 == g) =
      if g = n then (dirs.find? (fun x => x.1 == n)).map (fun _ => (n, t))
      else dirs.find? (fun x => x.1 == g) :=
  findKey_mapReplace dirs n t g

theorem mapFst_replaceDirEntry (dirs : List (String × FSTree)) (n : String) (t : FSTree) :
    (replaceDirEntry dirs n t).map Prod.fst = dirs.map Prod.fst :=
  mapFst_mapReplace dirs n t

theorem findKey_append {α : Type} (l m : List (String × α)) (n : String) :
    (l ++ m).find? (fun x => x.1 == n) =
      ((l.find? (fun x => x.1 == n)).or (m.find? (fun x => x.1 == n))) :=
  List.find?_append

theorem findKey_setFileEntry (files : List (String × FileData)) (n : String) (d : FileData)
    (g : String) :
    (setFileEntry files n d).find? (fun x => x.1 == g) =
      if g = n then some (n, d) else files.find? (fun x => x.1 == g) := by
  unfold setFileEntry
  by_cases hp : (files.find? (fun e => e.1 == n)).isSome
  · rw [if_pos hp, findKey_mapReplace]
    by_cases hgn : g = n
    · rcases Option.isSome_iff_exists.mp hp with ⟨e, he⟩
      simp [hgn, he]
    · simp [hgn]
  · rw [if_neg hp, findKey_append]
    by_cases hgn : g = n
    · have hn : files.find? (fun x => x.1 == n) = none :=
        Option.not_isSome_iff_eq_none.mp hp
      simp [hgn, hn, List.find?_cons]
    · have hsing : ([(n, d)].find? (fun x => x.1 == g)) = none := by
        rw [findKey_cons_miss (show (n, d).1 ≠ g from Ne.symm hgn)]
        rfl
      simp [hgn, hsing]

theorem mapFst_setFileEntry (files : List (String × FileData)) (n : String) (d : FileData) :
    (setFileEntry files n d).map Prod.fst =
      if (files.find? (fun e => e.1 == n)).isSome then files.map Prod.fst
      else files.map Prod.fst ++ [n] := by
  unfold setFileEntry
  by_cases hp : (files.find? (fun e => e.1 == n)).isSome
  · rw [if_pos hp, if_pos hp, mapFst_mapReplace]
  · rw [if_neg hp, if_neg hp]
    simp

/-! ### Basic tree lemmas -/

theorem neCons_head {a b : String} {l m : List String} (h : a ≠ b) : a :: l ≠ b :: m := by
  intro hh; cases hh; exact h rfl

theorem neCons_tail {a b : String} {l m : List String} (h : l ≠ m) : a :: l ≠ b :: m := by
  intro hh; cases hh; exact h rfl

theorem lookupFile_leaf (q : RelPath) : (FSTree.node [] []).lookupFile q = none := by
  match q with
  | [] => rfl
  | [g] => simp [FSTree.lookupFile]
  | g :: g₂ :: qrest => simp [FSTree.lookupFile]

theorem isDirAt_leaf_cons (g : String) (qrest : RelPath) :
    (FSTree.node [] []).isDirAt (g :: qrest) = false := by
  simp [FSTree.isDirAt]

theorem isDirAt_nil (t : FSTree) : t.isDirAt [] = true := by
  cases t; rfl

theorem lookupFile_setFile {p : RelPath} :
    ∀ {t t₂ : FSTree} {d : FileData}, t.setFile p d = some t₂ →
    ∀ q : RelPath, t₂.lookupFile q = if q = p then some d else t.lookupFile q := by
  induction p with
  | nil =>
    intro t t₂ d h
    cases t with
    | node dirs files => simp [FSTree.setFile] at h
  | cons p₁ ptail ih =>
    intro t t₂ d h q
    cases t with
    | node dirs files =>
      cases ptail with
      | nil =>
        simp only [FSTree.setFile] at h
        by_cases hd : (dirs.find? (fun e => e.1 == p₁)).isSome
        · rw [if_pos hd] at h; cases h
        · rw [if_neg hd] at h
          have ht₂ : t₂ = FSTree.node dirs (setFileEntry files p₁ d) :=
            (Option.some.injEq _ _ ▸ h).symm
          subst ht₂
          match q with
          | [] => simp [FSTree.lookupFile]
          | [g] =>
            simp only [FSTree.lookupFile, findKey_setFileEntry]
            by_cases hg : g = p₁
            · subst hg; simp
            · have : ¬([g] = [p₁]) := by simpa using hg
              simp [hg, this]
          | g :: g₂ :: qrest =>
            have : ¬(g :: g₂ :: qrest = [p₁]) := by simp
            simp only [FSTree.lookupFile, this, if_false]
      | cons p₂ ptail2 =>
        simp only [FSTree.setFile] at h
        cases hfd : dirs.find? (fun e => e.1 == p₁) with
        | some e =>
          rw [hfd] at h
          rcases Option.map_eq_some'.mp h with ⟨te, hte, ht₂⟩
          subst ht₂
          match q with
          | [] => simp [FSTree.lookupFile]
          | [g] =>
            have : ¬([g] = p₁ :: p₂ :: ptail2) := by simp
            simp only [FSTree.lookupFile, this, if_false]
          | g :: g₂ :: qrest =>
            simp only [FSTree.lookupFile, findKey_replaceDirEntry]
            by_cases hg : g = p₁
            · subst hg
              rw [if_pos rfl, hfd]
              show te.lookupFile (g₂ :: qrest) = _
              rw [ih hte (g₂ :: qrest)]
              by_cases htail : g₂ :: qrest = p₂ :: ptail2
              · rw [if_pos htail, if_pos (by rw [htail])]
              · rw [if_neg htail, if_neg (neCons_tail htail)]
            · rw [if_neg hg, if_neg (neCons_head hg)]
        | none =>
          rw [hfd] at h
          by_cases hf : (files.find? (fun e => e.1 == p₁)).isSome
          · rw [if_pos hf] at h; cases h
          · rw [if_neg hf] at h
            rcases Option.map_eq_some'.mp h with ⟨te, hte, ht₂⟩
            subst ht₂
            match q with
            | [] => simp [FSTree.lookupFile]
            | [g] =>
              have : ¬([g] = p₁ :: p₂ :: ptail2) := by simp
              simp only [FSTree.lookupFile, this, if_false]
            | g :: g₂ :: qrest =>
              simp only [FSTree.lookupFile, findKey_append]
              by_cases hg : g = p₁
              · subst hg
                rw [hfd, findKey_cons_hit (show (g, te).1 = g from rfl)]
                simp only [Option.none_or]
                show te.lookupFile (g₂ :: qrest) = _
                rw [ih hte (g₂ :: qrest)]
                by_cases htail : g₂ :: qrest = p₂ :: ptail2
                · rw [if_pos htail, if_pos (by rw [htail])]
                · rw [if_neg htail, if_neg (neCons_tail htail), lookupFile_leaf]
              · rw [findKey_cons_miss (show (p₁, te).1 ≠ g from Ne.symm hg),
                  if_neg (neCons_head hg)]
                cases hfg : dirs.find? (fun x => x.1 == g) with
                | some e₂ => rfl
                | none => rfl

theorem isDirAt_files_irrel (dirs : List (String × FSTree))
    (files files₂ : List (String × FileData)) (q : RelPath) :
    (FSTree.node dirs files).isDirAt q = (FSTree.node dirs files₂).isDirAt q := by
  cases q <;> simp [FSTree.isDirAt]

theorem isDirAt_setFile {p : RelPath} :
    ∀ {t t₂ : FSTree} {d : FileData}, t.setFile p d = some t₂ →
    ∀ q : RelPath,
      (t.isDirAt q = true → t₂.isDirAt q = true) ∧
      (t₂.isDirAt q = true → t.isDirAt q = true ∨ q <+: p) := by
  induction p with
  | nil =>
    intro t t₂ d h
    cases t with
    | node dirs files => simp [FSTree.setFile] at h
  | cons p₁ ptail ih =>
    intro t t₂ d h q
    cases t with
    | node dirs files =>
      cases ptail with
      | nil =>
        simp only [FSTree.setFile] at h
        by_cases hd : (dirs.find? (fun e => e.1 == p₁)).isSome
        · rw [if_pos hd] at h; cases h
        · rw [if_neg hd] at h
          have ht₂ : t₂ = FSTree.node dirs (setFileEntry files p₁ d) :=
            (Option.some.injEq _ _ ▸ h).symm
          subst ht₂
          rw [isDirAt_files_irrel dirs (setFileEntry files p₁ d) files]
          exact ⟨fun hh => hh, fun hh => Or.inl hh⟩
      | cons p₂ ptail2 =>
        simp only [FSTree.setFile] at h
        cases hfd : dirs.find? (fun e => e.1 == p₁) with
        | some e =>
          rw [hfd] at h
          rcases Option.map_eq_some'.mp h with ⟨te, hte, ht₂⟩
          subst ht₂
          match q with
          | [] => exact ⟨fun _ => rfl, fun _ => Or.inl rfl⟩
          | g :: qtail =>
            simp only [FSTree.isDirAt, findKey_replaceDirEntry]
            by_cases hg : g = p₁
            · subst hg
              rw [if_pos rfl, hfd]
              constructor
              · intro hh
                exact (ih hte qtail).1 hh
              · intro hh
                rcases (ih hte qtail).2 hh with h1 | h2
                · exact Or.inl h1
                · exact Or.inr (List.cons_prefix_cons.mpr ⟨rfl, h2⟩)
            · rw [if_neg hg]
              refine ⟨fun hh => hh, fun hh => Or.inl hh⟩
        | none =>
          rw [hfd] at h
          by_cases hf : (files.find? (fun e => e.1 == p₁)).isSome
          · rw [if_pos hf] at h; cases h
          · rw [if_neg hf] at h
            rcases Option.map_eq_some'.mp h with ⟨te, hte, ht₂⟩
            subst ht₂
            match q with
            | [] => exact ⟨fun _ => rfl, fun _ => Or.inl rfl⟩
            | g :: qtail =>
              simp only [FSTree.isDirAt, findKey_append]
              by_cases hg : g = p₁
              · subst hg
                rw [hfd, findKey_cons_hit (show (g, te).1 = g from rfl)]
                simp only [Option.none_or]
                constructor
                · intro hh; cases hh
                · intro hh
                  rcases (ih hte qtail).2 hh with h1 | h2
                  · -- a leaf has no directories below it
                    cases qtail with
                    | nil => exact Or.inr (List.cons_prefix_cons.mpr ⟨rfl, List.nil_prefix⟩)
                    | cons a as => rw [isDirAt_leaf_cons] at h1; cases h1
                  · exact Or.inr (List.cons_prefix_cons.mpr ⟨rfl, h2⟩)
              · rw [findKey_cons_miss (show (p₁, te).1 ≠ g from Ne.symm hg)]
                cases hfg : dirs.find? (fun x => x.1 == g) with
                | some e₂ => exact ⟨fun hh => hh, fun hh => Or.inl hh⟩
                | none => exact ⟨fun hh => hh, fun hh => Or.inl hh⟩

theorem lookupFile_mkdirs {p : RelPath} :
    ∀ {t t₂ : FSTree}, t.mkdirs p = some t₂ →
    ∀ q : RelPath, t₂.lookupFile q = t.lookupFile q := by
  induction p with
  | nil =>
    intro t t₂ h q
    cases t with
    | node dirs files =>
      simp only [FSTree.mkdirs] at h
      cases h; rfl
  | cons p₁ ptail ih =>
    intro t t₂ h q
    cases t with
    | node dirs files =>
      simp only [FSTree.mkdirs] at h
      cases hfd : dirs.find? (fun e => e.1 == p₁) with
      | some e =>
        rw [hfd] at h
        rcases Option.map_eq_some'.mp h with ⟨te, hte, ht₂⟩
        subst ht₂
        match q with
        | [] => rfl
        | [g] => rfl
        | g :: g₂ :: qrest =>
          simp only [FSTree.lookupFile, findKey_replaceDirEntry]
          by_cases hg : g = p₁
          · subst hg
            rw [if_pos rfl, hfd]
            show te.lookupFile (g₂ :: qrest) = _
            rw [ih hte (g₂ :: qrest)]
          · rw [if_neg hg]
      | none =>
        rw [hfd] at h
        by_cases hf : (files.find? (fun e => e.1 == p₁)).isSome
        · rw [if_pos hf] at h; cases h
        · rw [if_neg hf] at h
          rcases Option.map_eq_some'.mp h with ⟨te, hte, ht₂⟩
          subst ht₂
          match q with
          | [] => rfl
          | [g] => rfl
          | g :: g₂ :: qrest =>
            simp only [FSTree.lookupFile, findKey_append]
            by_cases hg : g = p₁
            · subst hg
              rw [hfd, findKey_cons_hit (show (g, te).1 = g from rfl)]
              simp only [Option.none_or]
              show te.lookupFile (g₂ :: qrest) = _
              rw [ih hte (g₂ :: qrest), lookupFile_leaf]
            · rw [findKey_cons_miss (show (p₁, te).1 ≠ g from Ne.symm hg)]
              cases hfg : dirs.find? (fun x => x.1 == g) with
              | some e₂ => rfl
              | none => rfl

theorem isDirAt_mkdirs {p : RelPath} :
    ∀ {t t₂ : FSTree}, t.mkdirs p = some t₂ →
    (∀ q : RelPath,
      (t.isDirAt q = true → t₂.isDirAt q = true) ∧
      (t₂.isDirAt q = true → t.isDirAt q = true ∨ q <+: p)) ∧
    t₂.isDirAt p = true := by
  induction p with
  | nil =>
    intro t t₂ h
    cases t with
    | node dirs files =>
      simp only [FSTree.mkdirs] at h
      cases h
      exact ⟨fun q => ⟨fun hh => hh, fun hh => Or.inl hh⟩, rfl⟩
  | cons p₁ ptail ih =>
    intro t t₂ h
    cases t with
    | node dirs files =>
      simp only [FSTree.mkdirs] at h
      cases hfd : dirs.find? (fun e => e.1 == p₁) with
      | some e =>
        rw [hfd] at h
        rcases Option.map_eq_some'.mp h with ⟨te, hte, ht₂⟩
        subst ht₂
        constructor
        · intro q
          match q with
          | [] => exact ⟨fun _ => rfl, fun _ => Or.inl rfl⟩
          | g :: qtail =>
            simp only [FSTree.isDirAt, findKey_replaceDirEntry]
            by_cases hg : g = p₁
            · subst hg
              rw [if_pos rfl, hfd]
              refine ⟨fun hh => ((ih hte).1 qtail).1 hh, fun hh => ?_⟩
              rcases ((ih hte).1 qtail).2 hh with h1 | h2
              · exact Or.inl h1
              · exact Or.inr (List.cons_prefix_cons.mpr ⟨rfl, h2⟩)
            · rw [if_neg hg]
              exact ⟨fun hh => hh, fun hh => Or.inl hh⟩
        · simp only [FSTree.isDirAt, findKey_replaceDirEntry, if_pos rfl, hfd]
          exact (ih hte).2
      | none =>
        rw [hfd] at h
        by_cases hf : (files.find? (fun e => e.1 == p₁)).isSome
        · rw [if_pos hf] at h; cases h
        · rw [if_neg hf] at h
          rcases Option.map_eq_some'.mp h with ⟨te, hte, ht₂⟩
          subst ht₂
          constructor
          · intro q
            match q with
            | [] => exact ⟨fun _ => rfl, fun _ => Or.inl rfl⟩
            | g :: qtail =>
              simp only [FSTree.isDirAt, findKey_append]
              by_cases hg : g = p₁
              · subst hg
                rw [hfd, findKey_cons_hit (show (g, te).1 = g from rfl)]
                simp only [Option.none_or]
                constructor
                · intro hh; cases hh
                · intro hh
                  rcases ((ih hte).1 qtail).2 hh with h1 | h2
                  · cases qtail with
                    | nil => exact Or.inr (List.cons_prefix_cons.mpr ⟨rfl, List.nil_prefix⟩)
                    | cons a as => rw [isDirAt_leaf_cons] at h1; cases h1
                  · exact Or.inr (List.cons_prefix_cons.mpr ⟨rfl, h2⟩)
              · rw [findKey_cons_miss (show (p₁, te).1 ≠ g from Ne.symm hg)]
                cases hfg : dirs.find? (fun x => x.1 == g) with
                | some e₂ => exact ⟨fun hh => hh, fun hh => Or.inl hh⟩
                | none => exact ⟨fun hh => hh, fun hh => Or.inl hh⟩
          · simp only [FSTree.isDirAt, findKey_append, hfd,
              findKey_cons_hit (show (p₁, te).1 = p₁ from rfl), Option.none_or]
            exact (ih hte).2

theorem existsPath_of_lookupFile {t : FSTree} {p : RelPath} {d : FileData}
    (h : t.lookupFile p = some d) : t.existsPath p = true := by
  simp [FSTree.existsPath, h]

theorem existsPath_of_isDirAt {t : FSTree} {p : RelPath}
    (h : t.isDirAt p = true) : t.existsPath p = true := by
  simp [FSTree.existsPath, h]

theorem existsPath_setFile_mono {t t₂ : FSTree} {p : RelPath} {d : FileData}
    (h : t.setFile p d = some t₂) {q : RelPath} (hq : t.existsPath q = true) :
    t₂.existsPath q = true := by
  simp only [FSTree.existsPath, Bool.or_eq_true] at hq ⊢
  rcases hq with hd | hl
  · exact Or.inl ((isDirAt_setFile h q).1 hd)
  · right
    rw [lookupFile_setFile h q]
    by_cases hqp : q = p
    · simp [hqp]
    · rw [if_neg hqp]; exact hl

theorem existsPath_setFile_rev {t t₂ : FSTree} {p : RelPath} {d : FileData}
    (h : t.setFile p d = some t₂) {q : RelPath} (hq : t₂.existsPath q = true) :
    t.existsPath q = true ∨ q <+: p := by
  simp only [FSTree.existsPath, Bool.or_eq_true] at hq
  rcases hq with hd | hl
  · rcases (isDirAt_setFile h q).2 hd with h1 | h2
    · exact Or.inl (existsPath_of_isDirAt h1)
    · exact Or.inr h2
  · rw [lookupFile_setFile h q] at hl
    by_cases hqp : q = p
    · exact Or.inr (by rw [hqp])
    · rw [if_neg hqp] at hl
      exact Or.inl (by simp [FSTree.existsPath, hl])

theorem lookupFile_setFile_self {t t₂ : FSTree} {p : RelPath} {d : FileData}
    (h : t.setFile p d = some t₂) : t₂.lookupFile p = some d := by
  have hc := lookupFile_setFile h p
  rwa [if_pos rfl] at hc

theorem existsPath_setFile_self {t t₂ : FSTree} {p : RelPath} {d : FileData}
    (h : t.setFile p d = some t₂) : t₂.existsPath p = true :=
  existsPath_of_lookupFile (lookupFile_setFile_self h)

theorem existsPath_mkdirs_mono {t t₂ : FSTree} {p : RelPath}
    (h : t.mkdirs p = some t₂) {q : RelPath} (hq : t.existsPath q = true) :
    t₂.existsPath q = true := by
  simp only [FSTree.existsPath, Bool.or_eq_true] at hq ⊢
  rcases hq with hd | hl
  · exact Or.inl (((isDirAt_mkdirs h).1 q).1 hd)
  · right
    rw [lookupFile_mkdirs h q]
    exact hl

theorem existsPath_mkdirs_rev {t t₂ : FSTree} {p : RelPath}
    (h : t.mkdirs p = some t₂) {q : RelPath} (hq : t₂.existsPath q = true) :
    t.existsPath q = true ∨ q <+: p := by
  simp only [FSTree.existsPath, Bool.or_eq_true] at hq
  rcases hq with hd | hl
  · rcases ((isDirAt_mkdirs h).1 q).2 hd with h1 | h2
    · exact Or.inl (existsPath_of_isDirAt h1)
    · exact Or.inr h2
  · rw [lookupFile_mkdirs h q] at hl
    exact Or.inl (by simp [FSTree.existsPath, hl])

/-! ### Wellformedness lemmas -/

theorem wf_node_iff (dirs : List (String × FSTree)) (files : List (String × FileData)) :
    (FSTree.node dirs files).wf = true ↔
      ((dirs.map Prod.fst ++ files.map Prod.fst).Nodup ∧ wfDirs dirs = true) := by
  simp [FSTree.wf]

theorem wf_leaf : (FSTree.node [] []).wf = true := by
  simp [FSTree.wf, wfDirs]

theorem wfDirs_mem {dirs : List (String × FSTree)} (h : wfDirs dirs = true)
    {e : String × FSTree} (he : e ∈ dirs) : e.2.wf = true := by
  induction dirs with
  | nil => cases he
  | cons e₂ rest ih =>
    simp only [wfDirs, Bool.and_eq_true] at h
    rcases List.mem_cons.mp he with h1 | h2
    · rw [h1]; exact h.1
    · exact ih h.2 h2

theorem wfDirs_replace {dirs : List (String × FSTree)} {n : String} {te : FSTree}
    (h : wfDirs dirs = true) (hte : te.wf = true) :
    wfDirs (replaceDirEntry dirs n te) = true := by
  induction dirs with
  | nil => rfl
  | cons e rest ih =>
    simp only [wfDirs, Bool.and_eq_true] at h
    have hstep : replaceDirEntry (e :: rest) n te =
        (if e.1 == n then (n, te) else e) :: replaceDirEntry rest n te := rfl
    rw [hstep]
    by_cases hen : e.1 = n
    · rw [if_pos (by simpa using hen)]
      simp only [wfDirs, Bool.and_eq_true]
      exact ⟨hte, ih h.2⟩
    · rw [if_neg (by simpa using hen)]
      simp only [wfDirs, Bool.and_eq_true]
      exact ⟨h.1, ih h.2⟩

theorem wfDirs_append_one {dirs : List (String × FSTree)} {n : String} {te : FSTree}
    (h : wfDirs dirs = true) (hte : te.wf = true) :
    wfDirs (dirs ++ [(n, te)]) = true := by
  induction dirs with
  | nil => simpa [wfDirs] using hte
  | cons e rest ih =>
    simp only [wfDirs, Bool.and_eq_true] at h
    simp only [List.cons_append, wfDirs, Bool.and_eq_true]
    exact ⟨h.1, ih h.2⟩

theorem nodup_insert_middle {x y : List String} {a : String}
    (h : (x ++ y).Nodup) (hax : a ∉ x) (hay : a ∉ y) : ((x ++ [a]) ++ y).Nodup := by
  have he : (x ++ [a]) ++ y = x ++ a :: y := by simp
  rw [he]
  rw [List.nodup_middle, List.nodup_cons]
  exact ⟨by simp [hax, hay], h⟩

theorem wf_setFile {p : RelPath} :
    ∀ {t t₂ : FSTree} {d : FileData}, t.setFile p d = some t₂ → t.wf = true →
    t₂.wf = true := by
  induction p with
  | nil =>
    intro t t₂ d h
    cases t with
    | node dirs files => simp [FSTree.setFile] at h
  | cons p₁ ptail ih =>
    intro t t₂ d h hwf
    cases t with
    | node dirs files =>
      rw [wf_node_iff] at hwf
      cases ptail with
      | nil =>
        simp only [FSTree.setFile] at h
        by_cases hd : (dirs.find? (fun e => e.1 == p₁)).isSome
        · rw [if_pos hd] at h; cases h
        · rw [if_neg hd] at h
          have ht₂ : t₂ = FSTree.node dirs (setFileEntry files p₁ d) :=
            (Option.some.injEq _ _ ▸ h).symm
          subst ht₂
          rw [wf_node_iff, mapFst_setFileEntry]
          by_cases hf : (files.find? (fun e => e.1 == p₁)).isSome
          · rw [if_pos hf]
            exact hwf
          · rw [if_neg hf]
            refine ⟨?_, hwf.2⟩
            have hnd : p₁ ∉ dirs.map Prod.fst := by
              intro hm
              rcases List.mem_map.mp hm with ⟨e, he, hfst⟩
              exact hd (findKey_isSome.mpr ⟨e.2, by rw [← hfst]; exact (by simpa using he)⟩)
            have hnf : p₁ ∉ files.map Prod.fst := by
              intro hm
              rcases List.mem_map.mp hm with ⟨e, he, hfst⟩
              exact hf (findKey_isSome.mpr ⟨e.2, by rw [← hfst]; exact (by simpa using he)⟩)
            have he2 : dirs.map Prod.fst ++ (files.map Prod.fst ++ [p₁]) =
                (dirs.map Prod.fst ++ files.map Prod.fst) ++ [p₁] := by simp
            rw [he2]
            rw [List.nodup_append]
            refine ⟨hwf.1, by simp, ?_⟩
            intro a ha hb
            rcases List.mem_singleton.mp hb
            rcases List.mem_append.mp ha with h1 | h2
            · exact hnd h1
            · exact hnf h2
      | cons p₂ ptail2 =>
        simp only [FSTree.setFile] at h
        cases hfd : dirs.find? (fun e => e.1 == p₁) with
        | some e =>
          rw [hfd] at h
          rcases Option.map_eq_some'.mp h with ⟨te, hte, ht₂⟩
          subst ht₂
          rw [wf_node_iff, mapFst_replaceDirEntry]
          refine ⟨hwf.1, ?_⟩
          have hewf : e.2.wf = true := wfDirs_mem hwf.2 (findKey_eq hfd).2
          exact wfDirs_replace hwf.2 (ih hte hewf)
        | none =>
          rw [hfd] at h
          by_cases hf : (files.find? (fun e => e.1 == p₁)).isSome
          · rw [if_pos hf] at h; cases h
          · rw [if_neg hf] at h
            rcases Option.map_eq_some'.mp h with ⟨te, hte, ht₂⟩
            subst ht₂
            rw [wf_node_iff]
            have hnd : p₁ ∉ dirs.map Prod.fst := by
              intro hm
              rcases List.mem_map.mp hm with ⟨e, he, hfst⟩
              have : (dirs.find? (fun e => e.1 == p₁)).isSome :=
                findKey_isSome.mpr ⟨e.2, by rw [← hfst]; exact (by simpa using he)⟩
              rw [hfd] at this; cases this
            have hnf : p₁ ∉ files.map Prod.fst := by
              intro hm
              rcases List.mem_map.mp hm with ⟨e, he, hfst⟩
              exact hf (findKey_isSome.mpr ⟨e.2, by rw [← hfst]; exact (by simpa using he)⟩)
            constructor
            · rw [List.map_append]
              exact nodup_insert_middle (by simpa using hwf.1) hnd hnf
            · exact wfDirs_append_one hwf.2 (ih hte wf_leaf)

theorem wf_mkdirs {p : RelPath} :
    ∀ {t t₂ : FSTree}, t.mkdirs p = some t₂ → t.wf = true → t₂.wf = true := by
  induction p with
  | nil =>
    intro t t₂ h hwf
    cases t with
    | node dirs files =>
      simp only [FSTree.mkdirs] at h
      cases h; exact hwf
  | cons p₁ ptail ih =>
    intro t t₂ h hwf
    cases t with
    | node dirs files =>
      rw [wf_node_iff] at hwf
      simp only [FSTree.mkdirs] at h
      cases hfd : dirs.find? (fun e => e.1 == p₁) with
      | some e =>
        rw [hfd] at h
        rcases Option.map_eq_some'.mp h with ⟨te, hte, ht₂⟩
        subst ht₂
        rw [wf_node_iff, mapFst_replaceDirEntry]
        refine ⟨hwf.1, ?_⟩
        have hewf : e.2.wf = true := wfDirs_mem hwf.2 (findKey_eq hfd).2
        exact wfDirs_replace hwf.2 (ih hte hewf)
      | none =>
        rw [hfd] at h
        by_cases hf : (files.find? (fun e => e.1 == p₁)).isSome
        · rw [if_pos hf] at h; cases h
        · rw [if_neg hf] at h
          rcases Option.map_eq_some'.mp h with ⟨te, hte, ht₂⟩
          subst ht₂
          rw [wf_node_iff]
          have hnd : p₁ ∉ dirs.map Prod.fst := by
            intro hm
            rcases List.mem_map.mp hm with ⟨e, he, hfst⟩
            have : (dirs.find? (fun e => e.1 == p₁)).isSome :=
              findKey_isSome.mpr ⟨e.2, by rw [← hfst]; exact (by simpa using he)⟩
            rw [hfd] at this; cases this
          have hnf : p₁ ∉ files.map Prod.fst := by
            intro hm
            rcases List.mem_map.mp hm with ⟨e, he, hfst⟩
            exact hf (findKey_isSome.mpr ⟨e.2, by rw [← hfst]; exact (by simpa using he)⟩)
          constructor
          · rw [List.map_append]
            exact nodup_insert_middle (by simpa using hwf.1) hnd hnf
          · exact wfDirs_append_one hwf.2 (ih hte wf_leaf)

theorem wf_file_not_dir {p : RelPath} :
    ∀ {t : FSTree} {d : FileData}, t.wf = true → t.lookupFile p = some d →
    t.isDirAt p = false := by
  induction p with
  | nil =>
    intro t d _ h
    cases t with
    | node dirs files => simp [FSTree.lookupFile] at h
  | cons p₁ ptail ih =>
    intro t d hwf h
    cases t with
    | node dirs files =>
      rw [wf_node_iff] at hwf
      cases ptail with
      | nil =>
        simp only [FSTree.lookupFile] at h
        rcases Option.map_eq_some'.mp h with ⟨ef, hef, _⟩
        have hmf : p₁ ∈ files.map Prod.fst :=
          List.mem_map.mpr ⟨ef, (findKey_eq hef).2, (findKey_eq hef).1⟩
        simp only [FSTree.isDirAt]
        cases hfd : dirs.find? (fun e => e.1 == p₁) with
        | none => rfl
        | some ed =>
          exfalso
          have hmd : p₁ ∈ dirs.map Prod.fst :=
            List.mem_map.mpr ⟨ed, (findKey_eq hfd).2, (findKey_eq hfd).1⟩
          exact List.disjoint_of_nodup_append hwf.1 hmd hmf
      | cons p₂ ptail2 =>
        simp only [FSTree.lookupFile] at h
        cases hfd : dirs.find? (fun e => e.1 == p₁) with
        | none => rw [hfd] at h; cases h
        | some e =>
          rw [hfd] at h
          simp only [FSTree.isDirAt, hfd]
          exact ih (wfDirs_mem hwf.2 (findKey_eq hfd).2) h

theorem isDirAt_of_lookup_strict_prefix {q : RelPath} :
    ∀ {p : RelPath} {t : FSTree} {d : FileData},
    t.lookupFile p = some d → q <+: p → q ≠ p → t.isDirAt q = true := by
  induction q with
  | nil => intro p t d _ _ _; cases t; rfl
  | cons a qtail ih =>
    intro p t d h hpre hne
    rcases hpre with ⟨r, hr⟩
    subst hr
    cases t with
    | node dirs files =>
      cases hqt : qtail ++ r with
      | nil =>
        exfalso
        rcases List.append_eq_nil.mp hqt with ⟨h1, h2⟩
        exact hne (by rw [h1, h2]; rfl)
      | cons b brest =>
        rw [List.cons_append, hqt] at h
        simp only [FSTree.lookupFile] at h
        cases hfd : dirs.find? (fun e => e.1 == a) with
        | none => rw [hfd] at h; cases h
        | some e =>
          rw [hfd] at h
          simp only [FSTree.isDirAt, hfd]
          cases qtail with
          | nil => exact isDirAt_nil e.2
          | cons c crest =>
            refine ih (p := b :: brest) h ⟨r, hqt⟩ ?_
            intro hcontra
            apply hne
            rw [List.cons_append, hqt, ← hcontra]

/-! ### Walk lemmas -/

theorem mem_walkDirs_iff {spec : IgnoreSpec} {pre : RelPath} {dirs : List (String × FSTree)}
    {s : RelPath} :
    s ∈ walkDirs spec pre dirs ↔
      ∃ e ∈ dirs, dir_visible spec (pathString (pre ++ [e.1])) e.1 = true ∧
        ∃ s₂, s₂ ∈ walkTree spec (pre ++ [e.1]) e.2 ∧ s = e.1 :: s₂ := by
  induction dirs with
  | nil => rw [walkDirs]; simp
  | cons e rest ih =>
    rw [walkDirs]
    simp only [List.mem_append]
    constructor
    · rintro (h1 | h2)
      · by_cases hv : dir_visible spec (pathString (pre ++ [e.1])) e.1 = true
        · rw [if_pos hv] at h1
          rcases List.mem_map.mp h1 with ⟨s₂, hs₂, heq⟩
          exact ⟨e, List.mem_cons_self e rest, hv, s₂, hs₂, heq.symm⟩
        · rw [if_neg hv] at h1; cases h1
      · rcases ih.mp h2 with ⟨e₂, he₂, hv, s₂, hs₂, heq⟩
        exact ⟨e₂, List.mem_cons_of_mem e he₂, hv, s₂, hs₂, heq⟩
    · rintro ⟨e₂, he₂, hv, s₂, hs₂, heq⟩
      rcases List.mem_cons.mp he₂ with h1 | h2
      · subst h1
        left
        rw [if_pos hv]
        exact List.mem_map.mpr ⟨s₂, hs₂, heq.symm⟩
      · right
        exact ih.mpr ⟨e₂, h2, hv, s₂, hs₂, heq⟩

theorem mem_walkTree_node_iff {spec : IgnoreSpec} {pre : RelPath}
    {dirs : List (String × FSTree)} {files : List (String × FileData)} {s : RelPath} :
    s ∈ walkTree spec pre (.node dirs files) ↔
      ((∃ e ∈ files, file_visible spec (pathString (pre ++ [e.1])) e.1 = true ∧ s = [e.1]) ∨
       s ∈ walkDirs spec pre dirs) := by
  rw [walkTree]
  simp only [List.mem_append, List.mem_map, List.mem_filter]
  constructor
  · rintro (⟨e, ⟨hef, hv⟩, heq⟩ | h2)
    · exact Or.inl ⟨e, hef, hv, heq.symm⟩
    · exact Or.inr h2
  · rintro (⟨e, hef, hv, heq⟩ | h2)
    · exact Or.inl ⟨e, ⟨hef, hv⟩, heq.symm⟩
    · exact Or.inr h2

theorem ne_nil_of_mem_walkTree {spec : IgnoreSpec} {pre : RelPath} {t : FSTree} {s : RelPath}
    (h : s ∈ walkTree spec pre t) : s ≠ [] := by
  cases t with
  | node dirs files =>
    rcases mem_walkTree_node_iff.mp h with ⟨e, _, _, hs⟩ | h2
    · rw [hs]; simp
    · rcases mem_walkDirs_iff.mp h2 with ⟨e, _, _, s₂, _, hs⟩
      rw [hs]; simp

theorem visibleFrom_of_mem_walkTree {spec : IgnoreSpec} {s : RelPath} :
    ∀ {t : FSTree} {pre : RelPath}, s ∈ walkTree spec pre t →
    visibleFrom spec pre s = true := by
  induction s with
  | nil => intro t pre h; exact absurd rfl (ne_nil_of_mem_walkTree h)
  | cons a stail ih =>
    intro t pre h
    cases t with
    | node dirs files =>
      rcases mem_walkTree_node_iff.mp h with ⟨e, _, hv, hs⟩ | h2
      · cases hs
        simpa [visibleFrom] using hv
      · rcases mem_walkDirs_iff.mp h2 with ⟨e, _, hv, s₂, hs₂, hs⟩
        cases hs
        obtain ⟨f, srest, rfl⟩ := List.exists_cons_of_ne_nil (ne_nil_of_mem_walkTree hs₂)
        rw [visibleFrom]
        simp only [Bool.and_eq_true]
        exact ⟨hv, ih hs₂⟩

theorem lookup_isSome_of_mem_walkTree {spec : IgnoreSpec} {s : RelPath} :
    ∀ {t : FSTree} {pre : RelPath}, t.wf = true → s ∈ walkTree spec pre t →
    (t.lookupFile s).isSome = true := by
  induction s with
  | nil => intro t pre _ h; exact absurd rfl (ne_nil_of_mem_walkTree h)
  | cons a stail ih =>
    intro t pre hwf h
    cases t with
    | node dirs files =>
      rw [wf_node_iff] at hwf
      rcases mem_walkTree_node_iff.mp h with ⟨e, hef, _, hs⟩ | h2
      · cases hs
        simp only [FSTree.lookupFile]
        have : (files.find? (fun x => x.1 == e.1)).isSome = true :=
          findKey_isSome.mpr ⟨e.2, by simpa using hef⟩
        rcases Option.isSome_iff_exists.mp this with ⟨v, hv⟩
        rw [hv]; rfl
      · rcases mem_walkDirs_iff.mp h2 with ⟨e, hed, _, s₂, hs₂, hs⟩
        cases hs
        obtain ⟨f, srest, rfl⟩ := List.exists_cons_of_ne_nil (ne_nil_of_mem_walkTree hs₂)
        have hnd : (dirs.map Prod.fst).Nodup := hwf.1.of_append_left
        have hfind : dirs.find? (fun x => x.1 == e.1) = some (e.1, e.2) :=
          findKey_nodup hnd (by simpa using hed)
        simp only [FSTree.lookupFile, hfind]
        exact ih (wfDirs_mem hwf.2 hed) hs₂

theorem mem_walkTree_of_lookup {spec : IgnoreSpec} {s : RelPath} :
    ∀ {t : FSTree} {pre : RelPath} {d : FileData}, t.lookupFile s = some d →
    visibleFrom spec pre s = true → s ∈ walkTree spec pre t := by
  induction s with
  | nil =>
    intro t pre d h _
    cases t with
    | node dirs files => simp [FSTree.lookupFile] at h
  | cons a stail ih =>
    intro t pre d h hvis
    cases t with
    | node dirs files =>
      cases stail with
      | nil =>
        simp only [FSTree.lookupFile] at h
        rcases Option.map_eq_some'.mp h with ⟨ef, hef, _⟩
        rcases findKey_eq hef with ⟨hefn, hefm⟩
        rw [visibleFrom] at hvis
        refine mem_walkTree_node_iff.mpr (Or.inl ⟨ef, hefm, ?_, by rw [hefn]⟩)
        rw [hefn]
        exact hvis
      | cons b stail2 =>
        simp only [FSTree.lookupFile] at h
        cases hfd : dirs.find? (fun e => e.1 == a) with
        | none => rw [hfd] at h; cases h
        | some e =>
          rw [hfd] at h
          rcases findKey_eq hfd with ⟨hen, hem⟩
          rw [visibleFrom] at hvis
          simp only [Bool.and_eq_true] at hvis
          refine mem_walkTree_node_iff.mpr (Or.inr (mem_walkDirs_iff.mpr
            ⟨e, hem, ?_, b :: stail2, ?_, by rw [hen]⟩))
          · rw [hen]; exact hvis.1
          · rw [hen]
            exact ih h hvis.2

theorem sizeOf_snd_lt_of_mem_dirs {dirs : List (String × FSTree)}
    {files : List (String × FileData)} {e : String × FSTree} (h : e ∈ dirs) :
    sizeOf e.2 < sizeOf (FSTree.node dirs files) := by
  have h1 : sizeOf e < sizeOf dirs := List.sizeOf_lt_of_mem h
  have h2 : sizeOf e = 1 + sizeOf e.1 + sizeOf e.2 := by cases e; simp
  have h3 : sizeOf (FSTree.node dirs files) = 1 + sizeOf dirs + sizeOf files := by simp
  omega

theorem walkDirs_nodup_aux (spec : IgnoreSpec) (n : Nat)
    (ihn : ∀ (t : FSTree) (pre : RelPath), sizeOf t ≤ n → t.wf = true →
      (walkTree spec pre t).Nodup) :
    ∀ (dirs : List (String × FSTree)) (pre : RelPath),
      (∀ e ∈ dirs, sizeOf e.2 ≤ n) → wfDirs dirs = true →
      (dirs.map Prod.fst).Nodup → (walkDirs spec pre dirs).Nodup := by
  intro dirs
  induction dirs with
  | nil => intro pre _ _ _; rw [walkDirs]; exact List.nodup_nil
  | cons e rest ih =>
    intro pre hsz hwfd hnd
    simp only [wfDirs, Bool.and_eq_true] at hwfd
    simp only [List.map_cons, List.nodup_cons] at hnd
    rw [walkDirs]
    apply List.Nodup.append
    · by_cases hv : dir_visible spec (pathString (pre ++ [e.1])) e.1 = true
      · rw [if_pos hv]
        refine List.Nodup.map ?_ (ihn e.2 (pre ++ [e.1]) (hsz e (List.mem_cons_self e rest)) hwfd.1)
        intro x y hxy
        exact (List.cons.injEq _ _ _ _ ▸ hxy).2
      · rw [if_neg hv]; exact List.nodup_nil
    · exact ih pre (fun e₂ he₂ => hsz e₂ (List.mem_cons_of_mem e he₂)) hwfd.2 hnd.2
    · intro s hs1 hs2
      rcases mem_walkDirs_iff.mp hs2 with ⟨e₂, he₂, _, s₂, _, hse₂⟩
      by_cases hv : dir_visible spec (pathString (pre ++ [e.1])) e.1 = true
      · rw [if_pos hv] at hs1
        rcases List.mem_map.mp hs1 with ⟨s₁, _, hse₁⟩
        rw [← hse₁] at hse₂
        have : e.1 = e₂.1 := (List.cons.injEq _ _ _ _ ▸ hse₂).1
        exact hnd.1 (this ▸ List.mem_map.mpr ⟨e₂, he₂, rfl⟩)
      · rw [if_neg hv] at hs1; cases hs1

theorem walkTree_nodup_aux (spec : IgnoreSpec) :
    ∀ (n : Nat) (t : FSTree) (pre : RelPath),
      sizeOf t ≤ n → t.wf = true → (walkTree spec pre t).Nodup := by
  intro n
  induction n with
  | zero =>
    intro t pre hsz _
    cases t with
    | node dirs files =>
      exfalso
      have : sizeOf (FSTree.node dirs files) = 1 + sizeOf dirs + sizeOf files := by simp
      omega
  | succ n ihn =>
    intro t pre hsz hwf
    cases t with
    | node dirs files =>
      rw [wf_node_iff] at hwf
      rw [walkTree]
      apply List.Nodup.append
      · have h1 : ((files.filter
            (fun e => file_visible spec (pathString (pre ++ [e.1])) e.1)).map Prod.fst).Nodup :=
          (hwf.1.of_append_right).sublist
            (List.Sublist.map Prod.fst (List.filter_sublist files))
        have h2 : (files.filter
              (fun e => file_visible spec (pathString (pre ++ [e.1])) e.1)).map
              (fun e => [e.1]) =
            ((files.filter
              (fun e => file_visible spec (pathString (pre ++ [e.1])) e.1)).map Prod.fst).map
              (fun x => [x]) := by
          rw [List.map_map]; rfl
        rw [h2]
        refine List.Nodup.map ?_ h1
        intro x y hxy
        exact (List.cons.injEq _ _ _ _ ▸ hxy).1
      · refine walkDirs_nodup_aux spec n (fun t₂ pre₂ h₂ hwf₂ => ihn t₂ pre₂ h₂ hwf₂)
          dirs pre ?_ hwf.2 hwf.1.of_append_left
        intro e he
        have := @sizeOf_snd_lt_of_mem_dirs dirs files e he
        omega
      · intro s hs1 hs2
        rcases List.mem_map.mp hs1 with ⟨e, _, hse⟩
        rcases mem_walkDirs_iff.mp hs2 with ⟨e₂, _, _, s₂, hs₂, hse₂⟩
        rw [← hse] at hse₂
        have : s₂ = [] := ((List.cons.injEq _ _ _ _ ▸ hse₂).2).symm
        exact ne_nil_of_mem_walkTree hs₂ this

theorem walkTree_nodup {spec : IgnoreSpec} {pre : RelPath} {t : FSTree}
    (hwf : t.wf = true) : (walkTree spec pre t).Nodup :=
  walkTree_nodup_aux spec (sizeOf t) t pre le_rfl hwf

theorem walkTree_no_strict_prefix {spec : IgnoreSpec} {pre : RelPath} {t : FSTree}
    (hwf : t.wf = true) {s₁ s₂ : RelPath}
    (h1 : s₁ ∈ walkTree spec pre t) (h2 : s₂ ∈ walkTree spec pre t) (hp : s₁ <+: s₂) :
    s₁ = s₂ := by
  by_contra hne
  rcases Option.isSome_iff_exists.mp (lookup_isSome_of_mem_walkTree hwf h2) with ⟨d₂, hd₂⟩
  rcases Option.isSome_iff_exists.mp (lookup_isSome_of_mem_walkTree hwf h1) with ⟨d₁, hd₁⟩
  have hdir : t.isDirAt s₁ = true := isDirAt_of_lookup_strict_prefix hd₂ hp hne
  have hnot : t.isDirAt s₁ = false := wf_file_not_dir hwf hd₁
  rw [hdir] at hnot
  cases hnot

/-! ### Copy-pass lemmas -/

theorem exceptMap_ok {ε α β : Type} {g : α → β} {x : Except ε α} {y : β}
    (h : x.map g = .ok y) : ∃ z, x = .ok z ∧ g z = y := by
  cases x with
  | error e => simp [Except.map] at h
  | ok z => exact ⟨z, rfl, by simpa [Except.map] using h⟩

theorem loop_files_cons_ok {sm : Bool} {src : FSTree} {f₀ : RelPath} {rest : List RelPath}
    {tgt : FSTree} {dec : List (RelPath × String)} {tgt₂ : FSTree}
    (h : loop_files sm src (f₀ :: rest) tgt = .ok (dec, tgt₂)) :
    ∃ ds, src.lookupFile f₀ = some ds ∧
      ((∃ tgt₃ dec₃, tgt.existsPath f₀ = false ∧ tgt.setFile f₀ ds = some tgt₃ ∧
         loop_files sm src rest tgt₃ = .ok (dec₃, tgt₂) ∧ dec = (f₀, "new") :: dec₃) ∨
       (∃ dt tgt₃ dec₃, tgt.existsPath f₀ = true ∧ sm = true ∧
         tgt.lookupFile f₀ = some dt ∧ dt.mtime < ds.mtime ∧
         tgt.setFile f₀ ds = some tgt₃ ∧
         loop_files sm src rest tgt₃ = .ok (dec₃, tgt₂) ∧
         dec = (f₀, "more recent") :: dec₃) ∨
       (tgt.existsPath f₀ = true ∧
         (sm = true → ∃ dt, tgt.lookupFile f₀ = some dt ∧ ¬ dt.mtime < ds.mtime) ∧
         loop_files sm src rest tgt = .ok (dec, tgt₂))) := by
  rw [loop_files] at h
  cases hsrc : src.lookupFile f₀ with
  | none =>
    simp only [hsrc] at h
    exact Except.noConfusion h
  | some ds =>
    simp only [hsrc] at h
    refine ⟨ds, rfl, ?_⟩
    by_cases hex : tgt.existsPath f₀ = true
    · rw [if_pos hex] at h
      by_cases hsm : sm = true
      · rw [if_pos hsm] at h
        cases hlt : tgt.lookupFile f₀ with
        | none =>
          simp only [hlt] at h
          exact Except.noConfusion h
        | some dt =>
          simp only [hlt] at h
          by_cases hcmp : dt.mtime < ds.mtime
          · rw [if_pos (by simpa using hcmp)] at h
            cases hset : tgt.setFile f₀ ds with
            | none =>
              simp only [hset] at h
              exact Except.noConfusion h
            | some tgt₃ =>
              simp only [hset] at h
              rcases exceptMap_ok h with ⟨⟨dec₃, tgt₄⟩, hok, hmap⟩
              have hdec : dec = (f₀, "more recent") :: dec₃ := by
                have := congrArg Prod.fst hmap
                simpa using this.symm
              have htgt : tgt₄ = tgt₂ := by
                have := congrArg Prod.snd hmap
                simpa using this
              exact Or.inr (Or.inl ⟨dt, tgt₃, dec₃, hex, hsm, rfl, hcmp, rfl,
                htgt ▸ hok, hdec⟩)
          · rw [if_neg (by simpa using hcmp)] at h
            exact Or.inr (Or.inr ⟨hex, fun _ => ⟨dt, rfl, hcmp⟩, h⟩)
      · rw [if_neg hsm] at h
        exact Or.inr (Or.inr ⟨hex, fun hc => absurd hc hsm, h⟩)
    · rw [if_neg hex] at h
      cases hset : tgt.setFile f₀ ds with
      | none =>
        simp only [hset] at h
        exact Except.noConfusion h
      | some tgt₃ =>
        simp only [hset] at h
        rcases exceptMap_ok h with ⟨⟨dec₃, tgt₄⟩, hok, hmap⟩
        have hdec : dec = (f₀, "new") :: dec₃ := by
          have := congrArg Prod.fst hmap
          simpa using this.symm
        have htgt : tgt₄ = tgt₂ := by
          have := congrArg Prod.snd hmap
          simpa using this
        exact Or.inl ⟨tgt₃, dec₃, by simpa using hex, rfl, htgt ▸ hok, hdec⟩

theorem loop_files_nil (sm : Bool) (src tgt : FSTree) :
    loop_files sm src [] tgt = .ok ([], tgt) := by
  rw [loop_files]

theorem loop_files_nil_inv {sm : Bool} {src tgt : FSTree} {dec : List (RelPath × String)}
    {tgt₂ : FSTree} (h : loop_files sm src [] tgt = .ok (dec, tgt₂)) :
    dec = [] ∧ tgt₂ = tgt := by
  rw [loop_files_nil] at h
  cases h
  exact ⟨rfl, rfl⟩

theorem loop_files_src_isSome {sm : Bool} {src : FSTree} :
    ∀ {files : List RelPath} {tgt : FSTree} {dec : List (RelPath × String)} {tgt₂ : FSTree},
    loop_files sm src files tgt = .ok (dec, tgt₂) →
    ∀ f ∈ files, (src.lookupFile f).isSome = true := by
  intro files
  induction files with
  | nil => intro tgt dec tgt₂ _ f hf; cases hf
  | cons f₀ rest ih =>
    intro tgt dec tgt₂ h f hf
    rcases loop_files_cons_ok h with ⟨ds, hsrc, hbr⟩
    rcases List.mem_cons.mp hf with rfl | hf2
    · rw [hsrc]; rfl
    · rcases hbr with ⟨tgt₃, dec₃, _, _, hok, _⟩ | ⟨dt, tgt₃, dec₃, _, _, _, _, _, hok, _⟩ |
        ⟨_, _, hok⟩ <;> exact ih hok f hf2

theorem loop_files_dec_fst_sublist {sm : Bool} {src : FSTree} :
    ∀ {files : List RelPath} {tgt : FSTree} {dec : List (RelPath × String)} {tgt₂ : FSTree},
    loop_files sm src files tgt = .ok (dec, tgt₂) →
    List.Sublist (dec.map Prod.fst) files := by
  intro files
  induction files with
  | nil =>
    intro tgt dec tgt₂ h
    rw [(loop_files_nil_inv h).1]
    simp
  | cons f₀ rest ih =>
    intro tgt dec tgt₂ h
    rcases loop_files_cons_ok h with ⟨ds, hsrc, hbr⟩
    rcases hbr with ⟨tgt₃, dec₃, _, _, hok, hdec⟩ |
      ⟨dt, tgt₃, dec₃, _, _, _, _, _, hok, hdec⟩ | ⟨_, _, hok⟩
    · rw [hdec]
      exact List.Sublist.cons₂ f₀ (ih hok)
    · rw [hdec]
      exact List.Sublist.cons₂ f₀ (ih hok)
    · exact List.Sublist.cons f₀ (ih hok)

theorem loop_files_dec_reason {sm : Bool} {src : FSTree} :
    ∀ {files : List RelPath} {tgt : FSTree} {dec : List (RelPath × String)} {tgt₂ : FSTree},
    loop_files sm src files tgt = .ok (dec, tgt₂) →
    ∀ f rsn, (f, rsn) ∈ dec → rsn = "new" ∨ rsn = "more recent" := by
  intro files
  induction files with
  | nil =>
    intro tgt dec tgt₂ h f rsn hm
    rw [(loop_files_nil_inv h).1] at hm
    cases hm
  | cons f₀ rest ih =>
    intro tgt dec tgt₂ h f rsn hm
    rcases loop_files_cons_ok h with ⟨ds, hsrc, hbr⟩
    rcases hbr with ⟨tgt₃, dec₃, _, _, hok, hdec⟩ |
      ⟨dt, tgt₃, dec₃, _, _, _, _, _, hok, hdec⟩ | ⟨_, _, hok⟩
    · rw [hdec] at hm
      rcases List.mem_cons.mp hm with heq | hm2
      · exact Or.inl (congrArg Prod.snd heq)
      · exact ih hok f rsn hm2
    · rw [hdec] at hm
      rcases List.mem_cons.mp hm with heq | hm2
      · exact Or.inr (congrArg Prod.snd heq)
      · exact ih hok f rsn hm2
    · exact ih hok f rsn hm

theorem loop_files_exists_mono {sm : Bool} {src : FSTree} :
    ∀ {files : List RelPath} {tgt : FSTree} {dec : List (RelPath × String)} {tgt₂ : FSTree},
    loop_files sm src files tgt = .ok (dec, tgt₂) →
    ∀ q : RelPath, tgt.existsPath q = true → tgt₂.existsPath q = true := by
  intro files
  induction files with
  | nil =>
    intro tgt dec tgt₂ h q hq
    rw [(loop_files_nil_inv h).2]
    exact hq
  | cons f₀ rest ih =>
    intro tgt dec tgt₂ h q hq
    rcases loop_files_cons_ok h with ⟨ds, hsrc, hbr⟩
    rcases hbr with ⟨tgt₃, dec₃, _, hset, hok, _⟩ |
      ⟨dt, tgt₃, dec₃, _, _, _, _, hset, hok, _⟩ | ⟨_, _, hok⟩
    · exact ih hok q (existsPath_setFile_mono hset hq)
    · exact ih hok q (existsPath_setFile_mono hset hq)
    · exact ih hok q hq

theorem loop_files_wf {sm : Bool} {src : FSTree} :
    ∀ {files : List RelPath} {tgt : FSTree} {dec : List (RelPath × String)} {tgt₂ : FSTree},
    loop_files sm src files tgt = .ok (dec, tgt₂) → tgt.wf = true → tgt₂.wf = true := by
  intro files
  induction files with
  | nil =>
    intro tgt dec tgt₂ h hwf
    rw [(loop_files_nil_inv h).2]
    exact hwf
  | cons f₀ rest ih =>
    intro tgt dec tgt₂ h hwf
    rcases loop_files_cons_ok h with ⟨ds, hsrc, hbr⟩
    rcases hbr with ⟨tgt₃, dec₃, _, hset, hok, _⟩ |
      ⟨dt, tgt₃, dec₃, _, _, _, _, hset, hok, _⟩ | ⟨_, _, hok⟩
    · exact ih hok (wf_setFile hset hwf)
    · exact ih hok (wf_setFile hset hwf)
    · exact ih hok hwf

theorem loop_files_skip_all {sm : Bool} {src : FSTree} :
    ∀ {files : List RelPath} {tgt : FSTree} {dec : List (RelPath × String)} {tgt₂ : FSTree},
    loop_files sm src files tgt = .ok (dec, tgt₂) →
    (∀ f ∈ files, tgt.existsPath f = true ∧
      (sm = true → ∀ ds dt, src.lookupFile f = some ds → tgt.lookupFile f = some dt →
        ¬ dt.mtime < ds.mtime)) →
    dec = [] ∧ tgt₂ = tgt := by
  intro files
  induction files with
  | nil => intro tgt dec tgt₂ h _; exact loop_files_nil_inv h
  | cons f₀ rest ih =>
    intro tgt dec tgt₂ h hall
    rcases loop_files_cons_ok h with ⟨ds, hsrc, hbr⟩
    rcases hbr with ⟨tgt₃, dec₃, hex, hset, hok, hdec⟩ |
      ⟨dt, tgt₃, dec₃, hex, hsm, hlt, hcmp, hset, hok, hdec⟩ | ⟨hex, hrec, hok⟩
    · rw [(hall f₀ (List.mem_cons_self f₀ rest)).1] at hex
      cases hex
    · exact absurd hcmp
        ((hall f₀ (List.mem_cons_self f₀ rest)).2 hsm ds dt hsrc hlt)
    · exact ih hok (fun f hf => hall f (List.mem_cons_of_mem f₀ hf))

theorem existsPath_setFile_eq {t t₃ : FSTree} {p : RelPath} {d : FileData}
    (h : t.setFile p d = some t₃) {q : RelPath} (hq : ¬ q <+: p) :
    t₃.existsPath q = t.existsPath q := by
  cases hb : t.existsPath q with
  | true => exact existsPath_setFile_mono h hb
  | false =>
    cases hb₃ : t₃.existsPath q with
    | false => rfl
    | true =>
      rcases existsPath_setFile_rev h hb₃ with h1 | h2
      · rw [h1] at hb; cases hb
      · exact absurd h2 hq

theorem copyCond_congr {sm : Bool} {src tgt tgt₃ : FSTree} {q : RelPath}
    (hex : tgt₃.existsPath q = tgt.existsPath q)
    (hlk : tgt₃.lookupFile q = tgt.lookupFile q) :
    copyCond sm src tgt₃ q = copyCond sm src tgt q := by
  rw [copyCond, copyCond, hex, hlk]

theorem loop_files_lookup {sm : Bool} {src : FSTree} :
    ∀ {files : List RelPath} {tgt : FSTree} {dec : List (RelPath × String)} {tgt₂ : FSTree},
    loop_files sm src files tgt = .ok (dec, tgt₂) → files.Nodup →
    (∀ q ∈ files, ∀ f ∈ files, q <+: f → q = f) →
    ∀ q, tgt₂.lookupFile q =
      if q ∈ files ∧ copyCond sm src tgt q = true then src.lookupFile q
      else tgt.lookupFile q := by
  intro files
  induction files with
  | nil =>
    intro tgt dec tgt₂ h _ _ q
    rw [(loop_files_nil_inv h).2]
    simp
  | cons f₀ rest ih =>
    intro tgt dec tgt₂ h hnd hnp q
    have hnd₂ := List.nodup_cons.mp hnd
    have hnp₂ : ∀ q₂ ∈ rest, ∀ f ∈ rest, q₂ <+: f → q₂ = f := fun q₂ hq₂ f hf =>
      hnp q₂ (List.mem_cons_of_mem f₀ hq₂) f (List.mem_cons_of_mem f₀ hf)
    rcases loop_files_cons_ok h with ⟨ds, hsrc, hbr⟩
    rcases hbr with ⟨tgt₃, dec₃, hex, hset, hok, _⟩ |
      ⟨dt, tgt₃, dec₃, hex, hsm, hlt, hcmp, hset, hok, _⟩ | ⟨hex, hrec, hok⟩
    · -- "new" copy branch
      have hcc : copyCond sm src tgt f₀ = true := by
        rw [copyCond, hex]
        rfl
      by_cases hq : q = f₀
      · subst hq
        rw [ih hok hnd₂.2 hnp₂ q, if_neg (fun hc => hnd₂.1 hc.1),
          lookupFile_setFile_self hset, hsrc,
          if_pos ⟨List.mem_cons_self q rest, hcc⟩]
      · rw [ih hok hnd₂.2 hnp₂ q]
        have hlk₃ : tgt₃.lookupFile q = tgt.lookupFile q := by
          rw [lookupFile_setFile hset q, if_neg hq]
        by_cases hqr : q ∈ rest
        · have hnpr : ¬ q <+: f₀ := fun hc =>
            hq (hnp q (List.mem_cons_of_mem f₀ hqr) f₀ (List.mem_cons_self f₀ rest) hc)
          have hex₃ : tgt₃.existsPath q = tgt.existsPath q :=
            existsPath_setFile_eq hset hnpr
          rw [copyCond_congr hex₃ hlk₃]
          by_cases hcq : copyCond sm src tgt q = true
          · rw [if_pos ⟨hqr, hcq⟩, if_pos ⟨List.mem_cons_of_mem f₀ hqr, hcq⟩]
          · rw [if_neg (fun hc => hcq hc.2), if_neg (fun hc => hcq hc.2), hlk₃]
        · rw [if_neg (fun hc => hqr hc.1), hlk₃,
            if_neg (fun hc => (List.mem_cons.mp hc.1).elim hq hqr)]
    · -- "more recent" copy branch
      have hcc : copyCond sm src tgt f₀ = true := by
        rw [copyCond, hex, hsm, hsrc, hlt]
        simp [hcmp]
      by_cases hq : q = f₀
      · subst hq
        rw [ih hok hnd₂.2 hnp₂ q, if_neg (fun hc => hnd₂.1 hc.1),
          lookupFile_setFile_self hset, hsrc,
          if_pos ⟨List.mem_cons_self q rest, hcc⟩]
      · rw [ih hok hnd₂.2 hnp₂ q]
        have hlk₃ : tgt₃.lookupFile q = tgt.lookupFile q := by
          rw [lookupFile_setFile hset q, if_neg hq]
        by_cases hqr : q ∈ rest
        · have hnpr : ¬ q <+: f₀ := fun hc =>
            hq (hnp q (List.mem_cons_of_mem f₀ hqr) f₀ (List.mem_cons_self f₀ rest) hc)
          have hex₃ : tgt₃.existsPath q = tgt.existsPath q :=
            existsPath_setFile_eq hset hnpr
          rw [copyCond_congr hex₃ hlk₃]
          by_cases hcq : copyCond sm src tgt q = true
          · rw [if_pos ⟨hqr, hcq⟩, if_pos ⟨List.mem_cons_of_mem f₀ hqr, hcq⟩]
          · rw [if_neg (fun hc => hcq hc.2), if_neg (fun hc => hcq hc.2), hlk₃]
        · rw [if_neg (fun hc => hqr hc.1), hlk₃,
            if_neg (fun hc => (List.mem_cons.mp hc.1).elim hq hqr)]
    · -- skip branch
      have hcc : copyCond sm src tgt f₀ = false := by
        rw [copyCond, hex, hsrc]
        cases hsm : sm with
        | false => rfl
        | true =>
          rcases hrec hsm with ⟨dt, hlt, hge⟩
          rw [hlt]
          simp [hge]
      rw [ih hok hnd₂.2 hnp₂ q]
      by_cases hq : q = f₀
      · subst hq
        rw [if_neg (fun hc => hnd₂.1 hc.1),
          if_neg (fun hc => by rw [hcc] at hc; cases hc.2)]
      · by_cases hqr : q ∈ rest
        · by_cases hcq : copyCond sm src tgt q = true
          · rw [if_pos ⟨hqr, hcq⟩, if_pos ⟨List.mem_cons_of_mem f₀ hqr, hcq⟩]
          · rw [if_neg (fun hc => hcq hc.2), if_neg (fun hc => hcq hc.2)]
        · rw [if_neg (fun hc => hqr hc.1),
            if_neg (fun hc => (List.mem_cons.mp hc.1).elim hq hqr)]

theorem loop_files_dec_iff {sm : Bool} {src : FSTree} :
    ∀ {files : List RelPath} {tgt : FSTree} {dec : List (RelPath × String)} {tgt₂ : FSTree},
    loop_files sm src files tgt = .ok (dec, tgt₂) → files.Nodup →
    (∀ q ∈ files, ∀ f ∈ files, q <+: f → q = f) →
    ∀ f ∈ files,
      (((f, "new") ∈ dec) ↔ tgt.existsPath f = false) ∧
      (((f, "more recent") ∈ dec) ↔ (tgt.existsPath f = true ∧ sm = true ∧
        ∃ ds dt, src.lookupFile f = some ds ∧ tgt.lookupFile f = some dt ∧
          dt.mtime < ds.mtime)) := by
  intro files
  induction files with
  | nil => intro tgt dec tgt₂ _ _ _ f hf; cases hf
  | cons f₀ rest ih =>
    intro tgt dec tgt₂ h hnd hnp f hf
    have hnd₂ := List.nodup_cons.mp hnd
    have hnp₂ : ∀ q₂ ∈ rest, ∀ g ∈ rest, q₂ <+: g → q₂ = g := fun q₂ hq₂ g hg =>
      hnp q₂ (List.mem_cons_of_mem f₀ hq₂) g (List.mem_cons_of_mem f₀ hg)
    rcases loop_files_cons_ok h with ⟨ds, hsrc, hbr⟩
    rcases hbr with ⟨tgt₃, dec₃, hex, hset, hok, hdec⟩ |
      ⟨dt, tgt₃, dec₃, hex, hsm, hlt, hcmp, hset, hok, hdec⟩ | ⟨hex, hrec, hok⟩
    · -- "new" copy branch
      have hsub := loop_files_dec_fst_sublist hok
      rcases List.mem_cons.mp hf with rfl | hfr
      · have hnm : ∀ rsn, (f, rsn) ∉ dec₃ := fun rsn hm =>
          hnd₂.1 (hsub.mem (List.mem_map.mpr ⟨(f, rsn), hm, rfl⟩))
        subst hdec
        constructor
        · constructor
          · intro _; exact hex
          · intro _; exact List.mem_cons_self _ _
        · constructor
          · intro hm
            rcases List.mem_cons.mp hm with heq | hm2
            · have h5 : ("more recent" : String) = "new" := congrArg Prod.snd heq
              exact absurd h5 (by decide)
            · exact absurd hm2 (hnm "more recent")
          · rintro ⟨hex₂, _⟩
            rw [hex] at hex₂; cases hex₂
      · have hne : f ≠ f₀ := fun hc => hnd₂.1 (hc ▸ hfr)
        have hmem : ∀ rsn : String, ((f, rsn) ∈ dec) ↔ ((f, rsn) ∈ dec₃) := by
          intro rsn
          subst hdec
          simp only [List.mem_cons]
          constructor
          · rintro (heq | hm2)
            · exact absurd (congrArg Prod.fst heq) hne
            · exact hm2
          · exact fun hm2 => Or.inr hm2
        have hnpr : ¬ f <+: f₀ := fun hc =>
          hne (hnp f (List.mem_cons_of_mem f₀ hfr) f₀ (List.mem_cons_self f₀ rest) hc)
        have hex₃ : tgt₃.existsPath f = tgt.existsPath f :=
          existsPath_setFile_eq hset hnpr
        have hlk₃ : tgt₃.lookupFile f = tgt.lookupFile f := by
          rw [lookupFile_setFile hset f, if_neg hne]
        have hih := ih hok hnd₂.2 hnp₂ f hfr
        rw [hex₃, hlk₃] at hih
        exact ⟨(hmem "new").trans hih.1, (hmem "more recent").trans hih.2⟩
    · -- "more recent" copy branch
      have hsub := loop_files_dec_fst_sublist hok
      rcases List.mem_cons.mp hf with rfl | hfr
      · have hnm : ∀ rsn, (f, rsn) ∉ dec₃ := fun rsn hm =>
          hnd₂.1 (hsub.mem (List.mem_map.mpr ⟨(f, rsn), hm, rfl⟩))
        subst hdec
        constructor
        · constructor
          · intro hm
            rcases List.mem_cons.mp hm with heq | hm2
            · have h5 : ("new" : String) = "more recent" := congrArg Prod.snd heq
              exact absurd h5 (by decide)
            · exact absurd hm2 (hnm "new")
          · intro hex₂
            rw [hex] at hex₂; cases hex₂
        · constructor
          · intro _
            exact ⟨hex, hsm, ds, dt, hsrc, hlt, hcmp⟩
          · intro _
            exact List.mem_cons_self _ _
      · have hne : f ≠ f₀ := fun hc => hnd₂.1 (hc ▸ hfr)
        have hmem : ∀ rsn : String, ((f, rsn) ∈ dec) ↔ ((f, rsn) ∈ dec₃) := by
          intro rsn
          subst hdec
          simp only [List.mem_cons]
          constructor
          · rintro (heq | hm2)
            · exact absurd (congrArg Prod.fst heq) hne
            · exact hm2
          · exact fun hm2 => Or.inr hm2
        have hnpr : ¬ f <+: f₀ := fun hc =>
          hne (hnp f (List.mem_cons_of_mem f₀ hfr) f₀ (List.mem_cons_self f₀ rest) hc)
        have hex₃ : tgt₃.existsPath f = tgt.existsPath f :=
          existsPath_setFile_eq hset hnpr
        have hlk₃ : tgt₃.lookupFile f = tgt.lookupFile f := by
          rw [lookupFile_setFile hset f, if_neg hne]
        have hih := ih hok hnd₂.2 hnp₂ f hfr
        rw [hex₃, hlk₃] at hih
        exact ⟨(hmem "new").trans hih.1, (hmem "more recent").trans hih.2⟩
    · -- skip branch
      have hsub := loop_files_dec_fst_sublist hok
      rcases List.mem_cons.mp hf with rfl | hfr
      · have hnm : ∀ rsn, (f, rsn) ∉ dec := fun rsn hm =>
          hnd₂.1 (hsub.mem (List.mem_map.mpr ⟨(f, rsn), hm, rfl⟩))
        constructor
        · constructor
          · intro hm; exact absurd hm (hnm "new")
          · intro hex₂; rw [hex] at hex₂; cases hex₂
        · constructor
          · intro hm; exact absurd hm (hnm "more recent")
          · rintro ⟨_, hsm, ds₂, dt₂, hsrc₂, hlt₂, hcmp₂⟩
            rcases hrec hsm with ⟨dt, hlt, hge⟩
            rw [hsrc₂] at hsrc
            rw [hlt₂] at hlt
            cases hsrc
            cases hlt
            exact (hge hcmp₂).elim
      · exact ih hok hnd₂.2 hnp₂ f hfr

/-! ### Directory-mirror lemmas -/

theorem mirrorFold_lookup :
    ∀ (l : List RelPath) {tgt tgt₂ : FSTree},
    l.foldlM mirrorStep tgt = some tgt₂ →
    ∀ q, tgt₂.lookupFile q = tgt.lookupFile q := by
  intro l
  induction l with
  | nil =>
    intro tgt tgt₂ h q
    rw [List.foldlM_nil] at h
    cases h; rfl
  | cons d rest ih =>
    intro tgt tgt₂ h q
    rw [List.foldlM_cons] at h
    rw [mirrorStep] at h
    by_cases hex : tgt.existsPath d = true
    · rw [if_pos hex] at h
      exact ih h q
    · rw [if_neg hex] at h
      cases hmk : tgt.mkdirs d with
      | none => rw [hmk] at h; cases h
      | some tgt₃ =>
        rw [hmk] at h
        rw [ih h q]
        exact lookupFile_mkdirs hmk q

theorem mirrorFold_exists_mono :
    ∀ (l : List RelPath) {tgt tgt₂ : FSTree},
    l.foldlM mirrorStep tgt = some tgt₂ →
    ∀ q, tgt.existsPath q = true → tgt₂.existsPath q = true := by
  intro l
  induction l with
  | nil =>
    intro tgt tgt₂ h q hq
    rw [List.foldlM_nil] at h
    cases h; exact hq
  | cons d rest ih =>
    intro tgt tgt₂ h q hq
    rw [List.foldlM_cons] at h
    rw [mirrorStep] at h
    by_cases hex : tgt.existsPath d = true
    · rw [if_pos hex] at h
      exact ih h q hq
    · rw [if_neg hex] at h
      cases hmk : tgt.mkdirs d with
      | none => rw [hmk] at h; cases h
      | some tgt₃ =>
        rw [hmk] at h
        exact ih h q (existsPath_mkdirs_mono hmk hq)

theorem mirrorFold_exists_rev :
    ∀ (l : List RelPath) {tgt tgt₂ : FSTree},
    l.foldlM mirrorStep tgt = some tgt₂ →
    ∀ q, tgt₂.existsPath q = true →
    tgt.existsPath q = true ∨ ∃ dp ∈ l, q <+: dp := by
  intro l
  induction l with
  | nil =>
    intro tgt tgt₂ h q hq
    rw [List.foldlM_nil] at h
    cases h; exact Or.inl hq
  | cons d rest ih =>
    intro tgt tgt₂ h q hq
    rw [List.foldlM_cons] at h
    rw [mirrorStep] at h
    by_cases hex : tgt.existsPath d = true
    · rw [if_pos hex] at h
      rcases ih h q hq with h1 | ⟨dp, hdp, hpre⟩
      · exact Or.inl h1
      · exact Or.inr ⟨dp, List.mem_cons_of_mem d hdp, hpre⟩
    · rw [if_neg hex] at h
      cases hmk : tgt.mkdirs d with
      | none => rw [hmk] at h; cases h
      | some tgt₃ =>
        rw [hmk] at h
        rcases ih h q hq with h1 | ⟨dp, hdp, hpre⟩
        · rcases existsPath_mkdirs_rev hmk h1 with h2 | h3
          · exact Or.inl h2
          · exact Or.inr ⟨d, List.mem_cons_self d rest, h3⟩
        · exact Or.inr ⟨dp, List.mem_cons_of_mem d hdp, hpre⟩

theorem mirrorFold_wf :
    ∀ (l : List RelPath) {tgt tgt₂ : FSTree},
    l.foldlM mirrorStep tgt = some tgt₂ → tgt.wf = true → tgt₂.wf = true := by
  intro l
  induction l with
  | nil =>
    intro tgt tgt₂ h hwf
    rw [List.foldlM_nil] at h
    cases h; exact hwf
  | cons d rest ih =>
    intro tgt tgt₂ h hwf
    rw [List.foldlM_cons] at h
    rw [mirrorStep] at h
    by_cases hex : tgt.existsPath d = true
    · rw [if_pos hex] at h
      exact ih h hwf
    · rw [if_neg hex] at h
      cases hmk : tgt.mkdirs d with
      | none => rw [hmk] at h; cases h
      | some tgt₃ =>
        rw [hmk] at h
        exact ih h (wf_mkdirs hmk hwf)

theorem loop_folder_lookup {src tgt tgt₂ : FSTree} (h : loop_folder src tgt = some tgt₂) :
    ∀ q, tgt₂.lookupFile q = tgt.lookupFile q :=
  mirrorFold_lookup (allDirsTree src) h

theorem loop_folder_exists_mono {src tgt tgt₂ : FSTree}
    (h : loop_folder src tgt = some tgt₂) :
    ∀ q, tgt.existsPath q = true → tgt₂.existsPath q = true :=
  mirrorFold_exists_mono (allDirsTree src) h

theorem loop_folder_exists_rev {src tgt tgt₂ : FSTree}
    (h : loop_folder src tgt = some tgt₂) :
    ∀ q, tgt₂.existsPath q = true →
    tgt.existsPath q = true ∨ ∃ dp ∈ allDirsTree src, q <+: dp :=
  mirrorFold_exists_rev (allDirsTree src) h

theorem loop_folder_wf {src tgt tgt₂ : FSTree} (h : loop_folder src tgt = some tgt₂)
    (hwf : tgt.wf = true) : tgt₂.wf = true :=
  mirrorFold_wf (allDirsTree src) h hwf

theorem mem_allDirsRest_iff {dirs : List (String × FSTree)} {s : RelPath} :
    s ∈ allDirsRest dirs ↔
      ∃ e ∈ dirs, ∃ s₂ ∈ allDirsTree e.2, s = e.1 :: s₂ := by
  induction dirs with
  | nil => rw [allDirsRest]; simp
  | cons e rest ih =>
    rw [allDirsRest]
    simp only [List.mem_append]
    constructor
    · rintro (h1 | h2)
      · rcases List.mem_map.mp h1 with ⟨s₂, hs₂, heq⟩
        exact ⟨e, List.mem_cons_self e rest, s₂, hs₂, heq.symm⟩
      · rcases ih.mp h2 with ⟨e₂, he₂, s₂, hs₂, heq⟩
        exact ⟨e₂, List.mem_cons_of_mem e he₂, s₂, hs₂, heq⟩
    · rintro ⟨e₂, he₂, s₂, hs₂, heq⟩
      rcases List.mem_cons.mp he₂ with h1 | h2
      · subst h1
        exact Or.inl (List.mem_map.mpr ⟨s₂, hs₂, heq.symm⟩)
      · exact Or.inr (ih.mpr ⟨e₂, h2, s₂, hs₂, heq⟩)

theorem isDirAt_of_mem_allDirs {s : RelPath} :
    ∀ {t : FSTree}, t.wf = true → s ∈ allDirsTree t → t.isDirAt s = true := by
  induction s with
  | nil =>
    intro t hwf hm
    exact isDirAt_nil t
  | cons a stail ih =>
    intro t hwf hm
    cases t with
    | node dirs files =>
      rw [wf_node_iff] at hwf
      rw [allDirsTree] at hm
      rcases List.mem_append.mp hm with h1 | h2
      · rcases List.mem_map.mp h1 with ⟨e, he, heq⟩
        have h3 : a = e.1 ∧ stail = [] := by
          have := heq.symm
          exact ⟨(List.cons.injEq _ _ _ _ ▸ this).1, (List.cons.injEq _ _ _ _ ▸ this).2⟩
        rcases h3 with ⟨rfl, rfl⟩
        have hfind : dirs.find? (fun x => x.1 == e.1) = some (e.1, e.2) :=
          findKey_nodup hwf.1.of_append_left (by simpa using he)
        simp only [FSTree.isDirAt, hfind]
      · rcases mem_allDirsRest_iff.mp h2 with ⟨e, he, s₂, hs₂, heq⟩
        have h3 : a = e.1 ∧ stail = s₂ := by
          exact ⟨(List.cons.injEq _ _ _ _ ▸ heq).1, (List.cons.injEq _ _ _ _ ▸ heq).2⟩
        rcases h3 with ⟨rfl, rfl⟩
        have hfind : dirs.find? (fun x => x.1 == e.1) = some (e.1, e.2) :=
          findKey_nodup hwf.1.of_append_left (by simpa using he)
        simp only [FSTree.isDirAt, hfind]
        exact ih (wfDirs_mem hwf.2 he) hs₂

theorem isDirAt_prefix {q : RelPath} :
    ∀ {dp : RelPath} {t : FSTree}, t.isDirAt dp = true → q <+: dp →
    t.isDirAt q = true := by
  induction q with
  | nil => intro dp t _ _; exact isDirAt_nil t
  | cons a qtail ih =>
    intro dp t hdir hpre
    rcases hpre with ⟨r, hr⟩
    subst hr
    cases t with
    | node dirs files =>
      rw [List.cons_append] at hdir
      simp only [FSTree.isDirAt] at hdir ⊢
      cases hfd : dirs.find? (fun e => e.1 == a) with
      | none => rw [hfd] at hdir; cases hdir
      | some e =>
        rw [hfd] at hdir
        exact ih hdir ⟨r, rfl⟩

theorem mirror_not_exists {src tgt tgt₂ : FSTree} (hwfs : src.wf = true)
    (h : loop_folder src tgt = some tgt₂) {x : RelPath} {d : FileData}
    (hx : src.lookupFile x = some d) (hnex : tgt.existsPath x = false) :
    tgt₂.existsPath x = false := by
  cases hb : tgt₂.existsPath x with
  | false => rfl
  | true =>
    rcases loop_folder_exists_rev h x hb with h1 | ⟨dp, hdp, hpre⟩
    · rw [hnex] at h1; cases h1
    · have hdir : src.isDirAt x = true :=
        isDirAt_prefix (isDirAt_of_mem_allDirs hwfs hdp) hpre
      have h2 := wf_file_not_dir hwfs hx
      rw [hdir] at h2; cases h2

/-! ### Run decomposition -/

set_option maxHeartbeats 1000000 in
theorem sync_folders_ok_inv {sm : Bool} {igF igE : Option (List String)} {igH : Bool}
    {fA fB ln el : String} {lm : Nat} {a b : FSTree} {r : SyncResult}
    (h : sync_folders sm igF igE igH fA fB ln el lm a b = .ok r) :
    ∃ b₁ a₁ b₂ a₂,
      loop_folder a b = some b₁ ∧
      loop_folder b₁ a = some a₁ ∧
      r.filesA = walkTree ⟨igF.getD [], igE.getD [], igH⟩ [] a₁ ∧
      r.filesB = walkTree ⟨igF.getD [], igE.getD [], igH⟩ [] b₁ ∧
      loop_files sm a₁ r.filesA b₁ = .ok (r.decAB, b₂) ∧
      loop_files sm b₂ r.filesB a₁ = .ok (r.decBA, a₂) ∧
      a₂.setFile (logPath ln) ⟨lm, r.log⟩ = some r.fsA ∧
      b₂.setFile (logPath ln) ⟨lm, r.log⟩ = some r.fsB ∧
      r.log = logText fA fB sm igF igE igH (r.filesA.length + r.filesB.length)
        (r.decAB.length + r.decBA.length) el r.decAB r.decBA := by
  rw [sync_folders] at h
  cases hm1 : loop_folder a b with
  | none => simp only [hm1] at h; exact Except.noConfusion h
  | some b₁ =>
    simp only [hm1] at h
    cases hm2 : loop_folder b₁ a with
    | none => simp only [hm2] at h; exact Except.noConfusion h
    | some a₁ =>
      simp only [hm2] at h
      cases hp1 : loop_files sm a₁ (walkTree ⟨igF.getD [], igE.getD [], igH⟩ [] a₁) b₁ with
      | error e => simp only [hp1] at h; exact Except.noConfusion h
      | ok v1 =>
        simp only [hp1] at h
        rcases v1 with ⟨decAB, b₂⟩
        cases hp2 : loop_files sm b₂ (walkTree ⟨igF.getD [], igE.getD [], igH⟩ [] b₁) a₁ with
        | error e => simp only [hp2] at h; exact Except.noConfusion h
        | ok v2 =>
          simp only [hp2] at h
          rcases v2 with ⟨decBA, a₂⟩
          cases hs1 : a₂.setFile (logPath ln)
              ⟨lm, logText fA fB sm igF igE igH
                ((walkTree ⟨igF.getD [], igE.getD [], igH⟩ [] a₁).length +
                 (walkTree ⟨igF.getD [], igE.getD [], igH⟩ [] b₁).length)
                (decAB.length + decBA.length) el decAB decBA⟩ with
          | none => simp only [hs1] at h; exact Except.noConfusion h
          | some a₃ =>
            simp only [hs1] at h
            cases hs2 : b₂.setFile (logPath ln)
                ⟨lm, logText fA fB sm igF igE igH
                  ((walkTree ⟨igF.getD [], igE.getD [], igH⟩ [] a₁).length +
                   (walkTree ⟨igF.getD [], igE.getD [], igH⟩ [] b₁).length)
                  (decAB.length + decBA.length) el decAB decBA⟩ with
            | none => simp only [hs2] at h; exact Except.noConfusion h
            | some b₃ =>
              simp only [hs2] at h
              cases h
              exact ⟨b₁, a₁, b₂, a₂, rfl, hm2, rfl, rfl, hp1, hp2, hs1, hs2, rfl⟩

/-! ### Claim theorems -/

/-- C1: Reconciliation policy of `loop_files`: for every file in the
source side's filtered file list, a copy decision with reason `new` is
produced iff the file's path does not exist on the target; otherwise a
decision with reason `more recent` is produced iff `sync_most_recent` is
enabled and the source file's modification time is strictly greater than
the target's; in every other case (equal modification times included) no
decision is produced for that path. -/
theorem c1_loop_files_policy {sm : Bool} {src tgt : FSTree} {files : List RelPath}
    {dec : List (RelPath × String)} {tgt₂ : FSTree}
    (hok : loop_files sm src files tgt = .ok (dec, tgt₂))
    (hnd : files.Nodup)
    (hnp : ∀ q ∈ files, ∀ f ∈ files, q <+: f → q = f)
    (f : RelPath) (hf : f ∈ files) :
    (((f, "new") ∈ dec) ↔ tgt.existsPath f = false) ∧
    (tgt.existsPath f = true →
      (((f, "more recent") ∈ dec) ↔ (sm = true ∧
        ∃ ds dt, src.lookupFile f = some ds ∧ tgt.lookupFile f = some dt ∧
          dt.mtime < ds.mtime))) ∧
    (tgt.existsPath f = true →
      ¬(sm = true ∧ ∃ ds dt, src.lookupFile f = some ds ∧ tgt.lookupFile f = some dt ∧
        dt.mtime < ds.mtime) →
      ∀ rsn, (f, rsn) ∉ dec) := by
  have hiff := loop_files_dec_iff hok hnd hnp f hf
  refine ⟨hiff.1, ?_, ?_⟩
  · intro hex
    constructor
    · intro hm
      exact (hiff.2.mp hm).2
    · intro hc
      exact hiff.2.mpr ⟨hex, hc.1, hc.2⟩
  · intro hex hnc rsn hm
    rcases loop_files_dec_reason hok f rsn hm with rfl | rfl
    · rw [hiff.1.mp hm] at hex; cases hex
    · exact hnc ⟨(hiff.2.mp hm).2.1, (hiff.2.mp hm).2.2⟩

/-- Witness for C1 at a concrete two-file source and one-file target with
recency sync on: the missing file yields `new`, the newer file yields
`more recent`. -/
theorem c1_loop_files_policy_witness :
    loop_files true (FSTree.node [] [("a.txt", ⟨5, "x"⟩), ("b.txt", ⟨7, "y"⟩)])
      [["a.txt"], ["b.txt"]] (FSTree.node [] [("b.txt", ⟨3, "z"⟩)]) =
      .ok ([(["a.txt"], "new"), (["b.txt"], "more recent")],
        FSTree.node [] [("b.txt", ⟨7, "y"⟩), ("a.txt", ⟨5, "x"⟩)]) ∧
    ((["a.txt"], "new") ∈ [((["a.txt"] : RelPath), "new"), (["b.txt"], "more recent")] ↔
      (FSTree.node [] [("b.txt", ⟨3, "z"⟩)]).existsPath ["a.txt"] = false) := by
  refine ⟨rfl, ?_⟩
  exact (@c1_loop_files_policy true
    (FSTree.node [] [("a.txt", ⟨5, "x"⟩), ("b.txt", ⟨7, "y"⟩)])
    (FSTree.node [] [("b.txt", ⟨3, "z"⟩)])
    [["a.txt"], ["b.txt"]]
    [(["a.txt"], "new"), (["b.txt"], "more recent")]
    (FSTree.node [] [("b.txt", ⟨7, "y"⟩), ("a.txt", ⟨5, "x"⟩)])
    rfl (by decide) (by decide) ["a.txt"] (by decide)).1

theorem visibleFrom_hidden_head_false {spec : IgnoreSpec} (hH : spec.ignore_hidden = true)
    {pre : RelPath} {a : String} (ha : strStartsWith a "." = true) (rest : RelPath) :
    visibleFrom spec pre (a :: rest) = false := by
  cases rest with
  | nil =>
    rw [visibleFrom, file_visible, hH, ha]
    rfl
  | cons b rest₂ =>
    rw [visibleFrom, dir_visible, hH, ha]
    rfl

theorem storeTrueParse_true (p : Bool) : storeTrueParse p true = true := by
  cases p <;> rfl

/-- C2: Self-exclusion of the reserved log directory: in every run
started through the command-line entry point `mainSync`, no path that
starts with the `.sync_logs` component appears in either side's
synchronized file list, nor in any copy decision of either direction.
(The exclusion is enforced by the hidden-entry rule: the CLI always
passes `ignore_hidden = True`, and `.sync_logs` starts with the hidden
marker.  The implicitly appended ignore entry `".sync_logs/"` alone
would not exclude files lying directly in `.sync_logs`, because the
directory-prune test compares `.sync_logs` against `.sync_logs/`.) -/
theorem c2_self_exclusion (args : CliArgs) (a b : FSTree) (ln el : String) (lm : Nat)
    (r : SyncResult) (h : mainSync args (some a) (some b) ln el lm = .ran (.ok r))
    (suffix : List String) (rsn : String) :
    (".sync_logs" :: suffix) ∉ r.filesA ∧ (".sync_logs" :: suffix) ∉ r.filesB ∧
    ((".sync_logs" :: suffix, rsn) ∉ r.decAB) ∧ ((".sync_logs" :: suffix, rsn) ∉ r.decBA) := by
  rw [mainSync, storeTrueParse_true args.ignoreHiddenFlag] at h
  have hsync : sync_folders (storeTrueParse args.syncMostRecentFlag false)
      (some (cliIgnoreFiles args.ignoreFilesArg)) args.ignoreExtensionsArg true
      args.A args.B ln el lm a b = .ok r := by
    cases hx : sync_folders (storeTrueParse args.syncMostRecentFlag false)
        (some (cliIgnoreFiles args.ignoreFilesArg)) args.ignoreExtensionsArg true
        args.A args.B ln el lm a b with
    | error e => rw [hx] at h; cases h
    | ok r₂ => rw [hx] at h; cases h; rfl
  rcases sync_folders_ok_inv hsync with
    ⟨b₁, a₁, b₂, a₂, hm1, hm2, hfA, hfB, hp1, hp2, hs1, hs2, hlog⟩
  have hnw : ∀ t₂ : FSTree, (".sync_logs" :: suffix) ∉
      walkTree ⟨(cliIgnoreFiles args.ignoreFilesArg : List String),
        args.ignoreExtensionsArg.getD [], true⟩ [] t₂ := by
    intro t₂ hm
    have hv := visibleFrom_of_mem_walkTree hm
    rw [visibleFrom_hidden_head_false rfl (by decide) suffix] at hv
    cases hv
  have h1 : (".sync_logs" :: suffix) ∉ r.filesA := by
    rw [hfA]; exact hnw a₁
  have h2 : (".sync_logs" :: suffix) ∉ r.filesB := by
    rw [hfB]; exact hnw b₁
  refine ⟨h1, h2, ?_, ?_⟩
  · intro hm
    exact h1 ((loop_files_dec_fst_sublist hp1).mem
      (List.mem_map.mpr ⟨(".sync_logs" :: suffix, rsn), hm, rfl⟩))
  · intro hm
    exact h2 ((loop_files_dec_fst_sublist hp2).mem
      (List.mem_map.mpr ⟨(".sync_logs" :: suffix, rsn), hm, rfl⟩))

/-- Witness for C2: a concrete CLI run over a root that contains a
pre-existing `.sync_logs/old.log`; that path appears in no file list and
no decision. -/
theorem c2_self_exclusion_witness :
    (match mainSync ⟨"A", "B", false, none, none, false⟩
        (some (FSTree.node [(".sync_logs", FSTree.node [] [("old.log", ⟨1, "l"⟩)])]
          [("a", ⟨1, "z"⟩)]))
        (some (FSTree.node [] [])) "run.log" "0.1" 9 with
      | .ran (.ok r) =>
        [".sync_logs", "old.log"] ∉ r.filesA ∧ [".sync_logs", "old.log"] ∉ r.filesB ∧
        (([".sync_logs", "old.log"], "new") ∉ r.decAB) ∧
        (([".sync_logs", "old.log"], "new") ∉ r.decBA)
      | _ => False) := by
  have h := c2_self_exclusion ⟨"A", "B", false, none, none, false⟩
    (FSTree.node [(".sync_logs", FSTree.node [] [("old.log", ⟨1, "l"⟩)])] [("a", ⟨1, "z"⟩)])
    (FSTree.node [] []) "run.log" "0.1" 9 _ rfl ["old.log"] "new"
  exact h

/-- C8: Structure-mirror idempotence: `loop_folder` operates on the
unfiltered directory enumeration `allDirsTree` (which takes no ignore
arguments), and when every directory relative path of the source already
exists on the target it returns the target tree unchanged - zero
filesystem mutations. -/
theorem c8_structure_mirror_idempotent (src tgt : FSTree)
    (h : ∀ d ∈ allDirsTree src, tgt.existsPath d = true) :
    loop_folder src tgt = some tgt := by
  rw [loop_folder]
  have hgen : ∀ (l : List RelPath), (∀ d ∈ l, tgt.existsPath d = true) →
      l.foldlM mirrorStep tgt = some tgt := by
    intro l
    induction l with
    | nil => intro _; rw [List.foldlM_nil]; rfl
    | cons d rest ih =>
      intro hall
      rw [List.foldlM_cons, mirrorStep, if_pos (hall d (List.mem_cons_self d rest))]
      exact ih (fun d₂ hd₂ => hall d₂ (List.mem_cons_of_mem d hd₂))
  exact hgen (allDirsTree src) h

/-- Witness for C8: a target that already has the source's only
directory (with extra content of its own) is returned unchanged. -/
theorem c8_structure_mirror_idempotent_witness :
    (∀ d ∈ allDirsTree (FSTree.node [("d", FSTree.node [] [])] []),
      (FSTree.node [("d", FSTree.node [] [("f", ⟨2, "c"⟩)])] []).existsPath d = true) ∧
    loop_folder (FSTree.node [("d", FSTree.node [] [])] [])
      (FSTree.node [("d", FSTree.node [] [("f", ⟨2, "c"⟩)])] []) =
      some (FSTree.node [("d", FSTree.node [] [("f", ⟨2, "c"⟩)])] []) :=
  ⟨by decide, c8_structure_mirror_idempotent _ _ (by decide)⟩

/-- C9: Missing-root precondition: when either root does not exist, the
program exits with status 1 before doing anything - in the model,
`mainSync` returns `.exited 1` without invoking `sync_folders`, so no
directory is created, no file copied and no log written. -/
theorem c9_missing_root_exits (args : CliArgs) (mb : Option FSTree) (a : FSTree)
    (ln el : String) (lm : Nat) :
    mainSync args none mb ln el lm = .exited 1 ∧
    mainSync args (some a) none ln el lm = .exited 1 :=
  ⟨rfl, rfl⟩

/-- C10: The `--ignore_hidden` flag is declared `store_true` with default
`True`, so the parsed value is `True` for every command-line invocation,
and every CLI-initiated run calls `sync_folders` with hidden exclusion
unconditionally enabled. -/
theorem c10_cli_ignore_hidden_always_on (args : CliArgs) (a b : FSTree)
    (ln el : String) (lm : Nat) :
    storeTrueParse args.ignoreHiddenFlag true = true ∧
    mainSync args (some a) (some b) ln el lm =
      .ran (sync_folders (storeTrueParse args.syncMostRecentFlag false)
        (some (cliIgnoreFiles args.ignoreFilesArg)) args.ignoreExtensionsArg true
        args.A args.B ln el lm a b) := by
  refine ⟨storeTrueParse_true _, ?_⟩
  rw [mainSync, storeTrueParse_true args.ignoreHiddenFlag]

theorem visibleFrom_false_hidden {spec : IgnoreSpec} (hH : spec.ignore_hidden = true) :
    ∀ {p : RelPath} {pre : RelPath} {c : String}, c ∈ p → strStartsWith c "." = true →
    visibleFrom spec pre p = false := by
  intro p
  induction p with
  | nil => intro pre c hc _; cases hc
  | cons a ptail ih =>
    intro pre c hc hdot
    cases ptail with
    | nil =>
      rcases List.mem_cons.mp hc with rfl | h2
      · rw [visibleFrom, file_visible, hH, hdot]; rfl
      · cases h2
    | cons f rest =>
      rcases List.mem_cons.mp hc with rfl | h2
      · rw [visibleFrom, dir_visible, hH, hdot]; rfl
      · rw [visibleFrom, ih h2 hdot, Bool.and_false]

theorem visibleFrom_false_file_check {spec : IgnoreSpec} :
    ∀ {p : RelPath} {pre : RelPath} (hne : p ≠ []),
    file_visible spec (pathString (pre ++ p)) (p.getLast hne) = false →
    visibleFrom spec pre p = false := by
  intro p
  induction p with
  | nil => intro pre h _; exact absurd rfl h
  | cons a ptail ih =>
    intro pre hne hfv
    cases ptail with
    | nil =>
      rw [visibleFrom]
      simpa using hfv
    | cons f rest =>
      rw [visibleFrom]
      have h2 : visibleFrom spec (pre ++ [a]) (f :: rest) = false := by
        refine ih (by simp) ?_
        have he : (pre ++ [a]) ++ (f :: rest) = pre ++ (a :: f :: rest) := by simp
        rw [he]
        have hl : (f :: rest).getLast (by simp) = (a :: f :: rest).getLast (by simp) :=
          (List.getLast_cons (by simp)).symm
        rw [hl]
        exact hfv
      rw [h2, Bool.and_false]

theorem visibleFrom_false_ancestor {spec : IgnoreSpec} :
    ∀ {p : RelPath} {pre : RelPath} {a : RelPath} {ign : String},
    a ∈ properAncestors p → ign ∈ spec.ignore_files →
    (pathString (pre ++ a) == ign || strStartsWith (pathString (pre ++ a))
      (joinTrailingSep ign)) = true →
    visibleFrom spec pre p = false := by
  intro p
  induction p with
  | nil => intro pre a ign ha _ _; cases ha
  | cons c ptail ih =>
    intro pre a ign ha hign hmatch
    cases ptail with
    | nil => cases ha
    | cons f rest =>
      rw [properAncestors] at ha
      rcases List.mem_cons.mp ha with rfl | h2
      · rw [visibleFrom, dir_visible]
        have hany : spec.ignore_files.any (fun i =>
            pathString (pre ++ [c]) == i ||
            strStartsWith (pathString (pre ++ [c])) (joinTrailingSep i)) = true :=
          List.any_eq_true.mpr ⟨ign, hign, hmatch⟩
        rw [hany]
        simp
      · rcases List.mem_map.mp h2 with ⟨a₂, ha₂, heq⟩
        rw [visibleFrom]
        have he : pre ++ c :: a₂ = (pre ++ [c]) ++ a₂ := by simp
        have h3 : visibleFrom spec (pre ++ [c]) (f :: rest) = false := by
          refine ih ha₂ hign ?_
          rw [← he, heq]
          exact hmatch
        rw [h3, Bool.and_false]

theorem visibleFrom_false_of_amendedMatch {spec : IgnoreSpec} {p : RelPath}
    (hm : amendedIgnoreMatch spec.ignore_files spec.ignore_extensions
      spec.ignore_hidden p = true)
    (hne : p ≠ []) : visibleFrom spec [] p = false := by
  rw [amendedIgnoreMatch] at hm
  simp only [Bool.or_eq_true] at hm
  rcases hm with ((hext | hexact) | hanc) | hhid
  · rcases List.any_eq_true.mp hext with ⟨ext, hext₂, hmatch⟩
    refine visibleFrom_false_file_check hne ?_
    rw [file_visible]
    have hany : spec.ignore_extensions.any
        (fun e => strEndsWith (pathString ([] ++ p)) e) = true := by
      rw [List.nil_append]
      exact List.any_eq_true.mpr ⟨ext, hext₂, hmatch⟩
    rw [hany]
    simp
  · rcases List.any_eq_true.mp hexact with ⟨ign, hign, hmatch⟩
    refine visibleFrom_false_file_check hne ?_
    rw [file_visible]
    have hany : spec.ignore_files.any
        (fun i => pathString ([] ++ p) == i) = true := by
      rw [List.nil_append]
      exact List.any_eq_true.mpr ⟨ign, hign, hmatch⟩
    rw [hany]
    simp
  · rcases List.any_eq_true.mp hanc with ⟨anc, hanc₂, hinner⟩
    rcases List.any_eq_true.mp hinner with ⟨ign, hign, hmatch⟩
    refine visibleFrom_false_ancestor hanc₂ hign ?_
    rw [List.nil_append]
    exact hmatch
  · rw [Bool.and_eq_true] at hhid
    rcases List.any_eq_true.mp hhid.2 with ⟨c, hc, hdot⟩
    exact visibleFrom_false_hidden hhid.1 hc hdot

/-- C3 counterexample: the claim as stated fails on the code.  With the
ignore entry `"docs/"` (a subtree entry written with a trailing
separator) the file `docs/readme.md` matches the claim's ignore
predicate - the entry, separator appended, is a prefix of the path - yet
a completed default run copies it and records the decision
`(docs/readme.md, new)`. -/
theorem c3_filter_claim_counterexample :
    claimedIgnoreMatchC3 ["docs/"] [] true ["docs", "readme.md"] = true ∧
    ((sync_folders false (some ["docs/"]) none true "A" "B" "run.log" "0.1" 9
        (FSTree.node [("docs", FSTree.node [] [("readme.md", ⟨5, "hi"⟩)])] [])
        (FSTree.node [] [])).toOption.map
      (fun r => r.decAB.contains (["docs", "readme.md"], "new"))).getD false = true := by
  exact ⟨rfl, rfl⟩

/-- C3 (amended): Filter correctness as the code enforces it: a file
never appears in a copy decision of a completed run when its relative
path matches an ignore-extension suffix, or equals an ignore-files entry
exactly, or one of its ancestor directories' paths equals an entry or
starts with an entry with the separator appended, or (with hidden
exclusion on) one of its path components starts with the hidden marker.
In contrast to the original claim, an ignore entry with a trailing
separator never matches the directory it denotes, so files directly
beneath that directory are not excluded. -/
theorem c3_amended_filter_correctness {sm : Bool} {igF igE : Option (List String)}
    {igH : Bool} {fA fB ln el : String} {lm : Nat} {a b : FSTree} {r : SyncResult}
    (h : sync_folders sm igF igE igH fA fB ln el lm a b = .ok r)
    (p : RelPath) (rsn : String)
    (hm : amendedIgnoreMatch (igF.getD []) (igE.getD []) igH p = true) :
    ((p, rsn) ∉ r.decAB) ∧ ((p, rsn) ∉ r.decBA) := by
  rcases sync_folders_ok_inv h with ⟨b₁, a₁, b₂, a₂, _, _, hfA, hfB, hp1, hp2, _, _, _⟩
  have hnw : ∀ t₂ : FSTree, p ∉ walkTree ⟨igF.getD [], igE.getD [], igH⟩ [] t₂ := by
    intro t₂ hmem
    by_cases hne : p = []
    · exact ne_nil_of_mem_walkTree hmem hne
    · have hv := visibleFrom_of_mem_walkTree hmem
      rw [visibleFrom_false_of_amendedMatch hm hne] at hv
      cases hv
  constructor
  · intro hmem
    refine hnw a₁ ?_
    rw [← hfA]
    exact (loop_files_dec_fst_sublist hp1).mem (List.mem_map.mpr ⟨(p, rsn), hmem, rfl⟩)
  · intro hmem
    refine hnw b₁ ?_
    rw [← hfB]
    exact (loop_files_dec_fst_sublist hp2).mem (List.mem_map.mpr ⟨(p, rsn), hmem, rfl⟩)

/-- Witness for the amended C3: with the entry written as `docs` (no
trailing separator) the subtree is pruned and the same file produces no
decision in a completed concrete run. -/
theorem c3_amended_filter_correctness_witness :
    amendedIgnoreMatch ["docs"] [] true ["docs", "readme.md"] = true ∧
    (match sync_folders false (some ["docs"]) none true "A" "B" "run.log" "0.1" 9
        (FSTree.node [("docs", FSTree.node [] [("readme.md", ⟨5, "hi"⟩)])] [])
        (FSTree.node [] []) with
     | .ok r => ((["docs", "readme.md"], "new") ∉ r.decAB) ∧
        ((["docs", "readme.md"], "new") ∉ r.decBA)
     | .error _ => False) := by
  refine ⟨rfl, ?_⟩
  exact @c3_amended_filter_correctness false (some ["docs"]) none true "A" "B"
    "run.log" "0.1" 9
    (FSTree.node [("docs", FSTree.node [] [("readme.md", ⟨5, "hi"⟩)])] [])
    (FSTree.node [] []) _ rfl ["docs", "readme.md"] "new" rfl

set_option maxRecDepth 8000 in
/-- C7 counterexample: a completed default CLI-style run that copies one
file records the decision `(x.txt, new)`, yet its log artifact contains
no line of the claimed form `because of '<reason>': <src> ==> <dst>` -
not even the substring `because of '` - because the code writes
`Because of` with a capital B (and spells the recency reason
`more recent`, not `more-recent`, and records only the combined file
total, not per-side totals). -/
theorem c7_log_claim_counterexample :
    ((sync_folders false (some [".sync_logs/"]) none true "A" "B" "run.log" "0.1" 9
        (FSTree.node [] [("x.txt", ⟨5, "hello"⟩)]) (FSTree.node [] [])).toOption.map
      (fun r => r.decAB.contains (["x.txt"], "new") &&
        !(strContainsSub r.log (claimedC7Line "new" (osJoin "A" (pathString ["x.txt"]))
            (osJoin "B" (pathString ["x.txt"])))) &&
        !(strContainsSub r.log "because of '"))).getD false = true := by
  rfl

/-- C7 (amended): Run-log content: the artifact of a completed run is
exactly the chunk sequence `logChunks`: the parameter header (both
roots, the recency flag, both ignore lists, the hidden flag), one
combined totals line - the total number of files considered across both
sides together with the number actually copied and the elapsed duration
- and then exactly one line per copy decision, in the form
`Because of '<reason>': <source path> ==> <destination path>` where the
reason is `new` or `more recent`. -/
theorem c7_amended_log_content {sm : Bool} {igF igE : Option (List String)}
    {igH : Bool} {fA fB ln el : String} {lm : Nat} {a b : FSTree} {r : SyncResult}
    (h : sync_folders sm igF igE igH fA fB ln el lm a b = .ok r) :
    r.log = logText fA fB sm igF igE igH (r.filesA.length + r.filesB.length)
      (r.decAB.length + r.decBA.length) el r.decAB r.decBA ∧
    (∀ d ∈ r.decAB, decisionLine fA fB d ∈ logChunks fA fB sm igF igE igH
      (r.filesA.length + r.filesB.length) (r.decAB.length + r.decBA.length)
      el r.decAB r.decBA) ∧
    (∀ d ∈ r.decBA, decisionLine fB fA d ∈ logChunks fA fB sm igF igE igH
      (r.filesA.length + r.filesB.length) (r.decAB.length + r.decBA.length)
      el r.decAB r.decBA) ∧
    (∀ f rsn, ((f, rsn) ∈ r.decAB ∨ (f, rsn) ∈ r.decBA) →
      rsn = "new" ∨ rsn = "more recent") := by
  rcases sync_folders_ok_inv h with ⟨b₁, a₁, b₂, a₂, _, _, _, _, hp1, hp2, _, _, hlog⟩
  refine ⟨hlog, ?_, ?_, ?_⟩
  · intro d hd
    rw [logChunks]
    refine List.mem_append.mpr (Or.inl (List.mem_append.mpr (Or.inr ?_)))
    exact List.mem_map.mpr ⟨d, hd, rfl⟩
  · intro d hd
    rw [logChunks]
    refine List.mem_append.mpr (Or.inr ?_)
    exact List.mem_map.mpr ⟨d, hd, rfl⟩
  · intro f rsn hm
    rcases hm with hm | hm
    · exact loop_files_dec_reason hp1 f rsn hm
    · exact loop_files_dec_reason hp2 f rsn hm

/-- Witness for the amended C7 at a concrete completed one-copy run. -/
theorem c7_amended_log_content_witness :
    (match sync_folders false (some [".sync_logs/"]) none true "A" "B" "run.log" "0.1" 9
        (FSTree.node [] [("x.txt", ⟨5, "hello"⟩)]) (FSTree.node [] []) with
     | .ok r => r.log = logText "A" "B" false (some [".sync_logs/"]) none true
          (r.filesA.length + r.filesB.length) (r.decAB.length + r.decBA.length) "0.1"
          r.decAB r.decBA
     | .error _ => False) := by
  exact (@c7_amended_log_content false (some [".sync_logs/"]) none true "A" "B"
    "run.log" "0.1" 9 (FSTree.node [] [("x.txt", ⟨5, "hello"⟩)])
    (FSTree.node [] []) _ rfl).1

/-- C5 counterexample: the claim as stated fails on the code.  Root A
holds a non-ignored regular file `d` and root B holds no *file* at `d` -
it holds a directory named `d`.  The completed default run produces no
decision at all (`os.path.exists` sees the directory, so the file is
considered already present), instead of the claimed single
`(new, A -> B)` decision, and B still has no file at `d` afterwards. -/
theorem c5_new_file_claim_counterexample :
    (FSTree.node [] [("d", ⟨5, "c"⟩)]).lookupFile ["d"] = some ⟨5, "c"⟩ ∧
    visibleFrom ⟨[".sync_logs/"], [], true⟩ [] ["d"] = true ∧
    (FSTree.node [("d", FSTree.node [] [])] []).lookupFile ["d"] = none ∧
    ((sync_folders false (some [".sync_logs/"]) none true "A" "B" "run.log" "0.1" 9
        (FSTree.node [] [("d", ⟨5, "c"⟩)])
        (FSTree.node [("d", FSTree.node [] [])] [])).toOption.map
      (fun r => !(r.decAB.contains (["d"], "new")) &&
        !(r.fsB.lookupFile ["d"]).isSome)).getD false = true := by
  exact ⟨rfl, rfl, rfl, rfl⟩

theorem countP_key_eq_one {α β : Type} [DecidableEq α] {l : List (α × β)} {a : α} {b : β}
    (hnd : (l.map Prod.fst).Nodup) (hmem : (a, b) ∈ l) :
    l.countP (fun y => y.1 = a) = 1 := by
  induction l with
  | nil => cases hmem
  | cons e t ih =>
    rw [List.map_cons, List.nodup_cons] at hnd
    rw [List.countP_cons]
    rcases List.mem_cons.mp hmem with rfl | hmt
    · have ht0 : t.countP (fun y => decide (y.1 = a)) = 0 := by
        rw [List.countP_eq_zero]
        intro y hy hpy
        have : y.1 = a := of_decide_eq_true hpy
        exact hnd.1 (this ▸ List.mem_map.mpr ⟨y, hy, rfl⟩)
      rw [ht0]
      simp
    · have hne : e.1 ≠ a := by
        intro heq
        exact hnd.1 (heq ▸ List.mem_map.mpr ⟨(a, b), hmt, rfl⟩)
      rw [ih hnd.2 hmt, decide_eq_false hne]
      rfl

/-- C5 (amended): New-file propagation, with the precondition
strengthened as the code forces: if a non-ignored file exists at `x`
under root A and *nothing* (neither file nor directory) exists at `x`
under root B, then a completed default-option run produces exactly one
copy decision for `x`, namely `(x, new)` in the A-to-B direction, the
B-to-A pass produces no decision for `x`, and afterwards B holds a file
at `x` with A's content and modification time. -/
theorem c5_amended_new_file_propagation {fA fB ln el : String} {lm : Nat}
    {a b : FSTree} {r : SyncResult} {x : RelPath} {d : FileData}
    (h : sync_folders false (some [".sync_logs/"]) none true fA fB ln el lm a b = .ok r)
    (hwa : a.wf = true) (hwb : b.wf = true)
    (hx : a.lookupFile x = some d)
    (hvis : visibleFrom ⟨[".sync_logs/"], [], true⟩ [] x = true)
    (hnex : b.existsPath x = false) :
    (x, "new") ∈ r.decAB ∧
    (∀ rsn, (x, rsn) ∈ r.decAB → rsn = "new") ∧
    r.decAB.countP (fun y => y.1 = x) = 1 ∧
    (∀ rsn, (x, rsn) ∉ r.decBA) ∧
    r.fsB.lookupFile x = some d := by
  rcases sync_folders_ok_inv h with
    ⟨b₁, a₁, b₂, a₂, hm1, hm2, hfA, hfB, hp1, hp2, hs1, hs2, hlog⟩
  simp only [Option.getD_some, Option.getD_none] at hfA hfB
  have hwb₁ : b₁.wf = true := loop_folder_wf hm1 hwb
  have hwa₁ : a₁.wf = true := loop_folder_wf hm2 hwa
  have ha₁x : a₁.lookupFile x = some d := by
    rw [loop_folder_lookup hm2 x]; exact hx
  have hnexb₁ : b₁.existsPath x = false := mirror_not_exists hwa hm1 hx hnex
  have hmemA : x ∈ r.filesA := by
    rw [hfA]
    exact mem_walkTree_of_lookup ha₁x hvis
  have hndA : r.filesA.Nodup := by
    rw [hfA]; exact walkTree_nodup hwa₁
  have hnpA : ∀ q ∈ r.filesA, ∀ f ∈ r.filesA, q <+: f → q = f := by
    rw [hfA]
    intro q hq f hf hpre
    exact walkTree_no_strict_prefix hwa₁ hq hf hpre
  have hiff := loop_files_dec_iff hp1 hndA hnpA x hmemA
  have hmem_new : (x, "new") ∈ r.decAB := hiff.1.mpr hnexb₁
  have hreason : ∀ rsn, (x, rsn) ∈ r.decAB → rsn = "new" := by
    intro rsn hm
    rcases loop_files_dec_reason hp1 x rsn hm with rfl | rfl
    · rfl
    · rw [(hiff.2.mp hm).1] at hnexb₁; cases hnexb₁
  have hcount : r.decAB.countP (fun y => y.1 = x) = 1 := by
    have hnd₂ : (r.decAB.map Prod.fst).Nodup :=
      hndA.sublist (loop_files_dec_fst_sublist hp1)
    exact countP_key_eq_one hnd₂ hmem_new
  have hnotBA : ∀ rsn, (x, rsn) ∉ r.decBA := by
    intro rsn hm
    have hmemB : x ∈ r.filesB :=
      (loop_files_dec_fst_sublist hp2).mem (List.mem_map.mpr ⟨(x, rsn), hm, rfl⟩)
    rw [hfB] at hmemB
    have hsome := lookup_isSome_of_mem_walkTree hwb₁ hmemB
    rw [loop_folder_lookup hm1 x] at hsome
    rcases Option.isSome_iff_exists.mp hsome with ⟨dd, hdd⟩
    rw [existsPath_of_lookupFile hdd] at hnex
    cases hnex
  have hxlog : x ≠ logPath ln := by
    intro heq
    rw [heq] at hvis
    simp only [logPath] at hvis
    rw [visibleFrom_false_hidden rfl (List.mem_cons_self _ _) (by decide)] at hvis
    cases hvis
  have hfsB : r.fsB.lookupFile x = some d := by
    rw [lookupFile_setFile hs2 x, if_neg hxlog,
      loop_files_lookup hp1 hndA hnpA x]
    have hcc : copyCond false a₁ b₁ x = true := by
      rw [copyCond, hnexb₁]
      rfl
    rw [if_pos ⟨hmemA, hcc⟩]
    exact ha₁x
  exact ⟨hmem_new, hreason, hcount, hnotBA, hfsB⟩

theorem c5_amended_new_file_propagation_witness :
    (FSTree.node [] [("a.txt", ⟨5, "x"⟩)]).wf = true ∧
    (FSTree.node [] []).existsPath ["a.txt"] = false ∧
    (match sync_folders false (some [".sync_logs/"]) none true "A" "B" "run.log" "0.1" 9
        (FSTree.node [] [("a.txt", ⟨5, "x"⟩)]) (FSTree.node [] []) with
     | .ok r => (["a.txt"], "new") ∈ r.decAB ∧
        r.decAB.countP (fun y => y.1 = ["a.txt"]) = 1 ∧
        r.fsB.lookupFile ["a.txt"] = some ⟨5, "x"⟩
     | .error _ => False) := by
  refine ⟨rfl, rfl, ?_⟩
  have h := @c5_amended_new_file_propagation "A" "B" "run.log" "0.1" 9
    (FSTree.node [] [("a.txt", ⟨5, "x"⟩)]) (FSTree.node [] []) _ ["a.txt"] ⟨5, "x"⟩
    rfl rfl rfl rfl rfl rfl
  exact ⟨h.1, h.2.2.1, h.2.2.2.2⟩

/-- C6 counterexample: the copy half of the claim fails on the code.
Root B holds a non-ignored regular file `d` absent from root A as a
file - but A holds a *directory* named `d`.  The completed default run
copies nothing (`os.path.exists` on the target path sees the
directory), so afterwards A still has no file at `d`; B's original is
untouched. -/
theorem c6_no_deletion_claim_counterexample :
    (FSTree.node [] [("d", ⟨5, "x"⟩)]).lookupFile ["d"] = some ⟨5, "x"⟩ ∧
    (FSTree.node [("d", FSTree.node [] [])] []).lookupFile ["d"] = none ∧
    visibleFrom ⟨[".sync_logs/"], [], true⟩ [] ["d"] = true ∧
    ((sync_folders false (some [".sync_logs/"]) none true "A" "B" "run.log" "0.1" 9
        (FSTree.node [("d", FSTree.node [] [])] [])
        (FSTree.node [] [("d", ⟨5, "x"⟩)])).toOption.map
      (fun r => !(r.fsA.lookupFile ["d"]).isSome &&
        decide (r.fsB.lookupFile ["d"] = some ⟨5, "x"⟩))).getD false = true := by
  exact ⟨rfl, rfl, rfl, rfl⟩

/-- C6 (amended): No-deletion holds unconditionally - every path (and in
particular every file) present under either root before a completed run
is still present under that root afterwards, for arbitrary options.  The
copy half holds with the precondition strengthened as the code forces:
a non-ignored file at `x` under B is copied to A only when *nothing*
(neither file nor directory) exists at `x` under A; B's original is
still there, unmodified. -/
theorem c6_amended_no_deletion {sm : Bool} {igF igE : Option (List String)} {igH : Bool}
    {fA fB ln el : String} {lm : Nat} {a b : FSTree} {r : SyncResult}
    (h : sync_folders sm igF igE igH fA fB ln el lm a b = .ok r)
    (hwa : a.wf = true) (hwb : b.wf = true) :
    (∀ p : RelPath, a.existsPath p = true → r.fsA.existsPath p = true) ∧
    (∀ p : RelPath, b.existsPath p = true → r.fsB.existsPath p = true) ∧
    (∀ (p : RelPath) (dd : FileData), a.lookupFile p = some dd →
      (r.fsA.lookupFile p).isSome = true) ∧
    (∀ (p : RelPath) (dd : FileData), b.lookupFile p = some dd →
      (r.fsB.lookupFile p).isSome = true) ∧
    (∀ (x : RelPath) (dd : FileData), b.lookupFile x = some dd →
      a.existsPath x = false →
      visibleFrom ⟨igF.getD [], igE.getD [], igH⟩ [] x = true →
      x ≠ logPath ln →
      r.fsA.lookupFile x = some dd ∧ r.fsB.lookupFile x = some dd) := by
  rcases sync_folders_ok_inv h with
    ⟨b₁, a₁, b₂, a₂, hm1, hm2, hfA, hfB, hp1, hp2, hs1, hs2, hlog⟩
  have hwb₁ : b₁.wf = true := loop_folder_wf hm1 hwb
  have hwa₁ : a₁.wf = true := loop_folder_wf hm2 hwa
  have hndA : r.filesA.Nodup := by rw [hfA]; exact walkTree_nodup hwa₁
  have hnpA : ∀ q ∈ r.filesA, ∀ f ∈ r.filesA, q <+: f → q = f := by
    rw [hfA]
    intro q hq f hf hpre
    exact walkTree_no_strict_prefix hwa₁ hq hf hpre
  have hndB : r.filesB.Nodup := by rw [hfB]; exact walkTree_nodup hwb₁
  have hnpB : ∀ q ∈ r.filesB, ∀ f ∈ r.filesB, q <+: f → q = f := by
    rw [hfB]
    intro q hq f hf hpre
    exact walkTree_no_strict_prefix hwb₁ hq hf hpre
  refine ⟨?_, ?_, ?_, ?_, ?_⟩
  · intro p hp
    exact existsPath_setFile_mono hs1
      (loop_files_exists_mono hp2 p (loop_folder_exists_mono hm2 p hp))
  · intro p hp
    exact existsPath_setFile_mono hs2
      (loop_files_exists_mono hp1 p (loop_folder_exists_mono hm1 p hp))
  · intro p dd hp
    rw [lookupFile_setFile hs1 p]
    by_cases hpl : p = logPath ln
    · rw [if_pos hpl]; rfl
    · rw [if_neg hpl, loop_files_lookup hp2 hndB hnpB p]
      by_cases hc : p ∈ r.filesB ∧ copyCond sm b₂ a₁ p = true
      · rw [if_pos hc]
        exact loop_files_src_isSome hp2 p hc.1
      · rw [if_neg hc, loop_folder_lookup hm2 p, hp]
        rfl
  · intro p dd hp
    rw [lookupFile_setFile hs2 p]
    by_cases hpl : p = logPath ln
    · rw [if_pos hpl]; rfl
    · rw [if_neg hpl, loop_files_lookup hp1 hndA hnpA p]
      by_cases hc : p ∈ r.filesA ∧ copyCond sm a₁ b₁ p = true
      · rw [if_pos hc]
        exact loop_files_src_isSome hp1 p hc.1
      · rw [if_neg hc, loop_folder_lookup hm1 p, hp]
        rfl
  · intro x dd hx hnexa hvis hxlog
    have hb₁x : b₁.lookupFile x = some dd := by
      rw [loop_folder_lookup hm1 x]; exact hx
    have hnexa₁ : a₁.existsPath x = false := mirror_not_exists hwb₁ hm2 hb₁x hnexa
    have hmemB : x ∈ r.filesB := by
      rw [hfB]
      exact mem_walkTree_of_lookup hb₁x hvis
    have hxnotA : x ∉ r.filesA := by
      intro hmemA
      rw [hfA] at hmemA
      rcases Option.isSome_iff_exists.mp (lookup_isSome_of_mem_walkTree hwa₁ hmemA)
        with ⟨d₂, hd₂⟩
      rw [existsPath_of_lookupFile hd₂] at hnexa₁
      cases hnexa₁
    have hb₂x : b₂.lookupFile x = some dd := by
      rw [loop_files_lookup hp1 hndA hnpA x, if_neg (fun hc => hxnotA hc.1)]
      exact hb₁x
    have hcc : copyCond sm b₂ a₁ x = true := by
      rw [copyCond, hnexa₁]
      rfl
    have ha₂x : a₂.lookupFile x = some dd := by
      rw [loop_files_lookup hp2 hndB hnpB x, if_pos ⟨hmemB, hcc⟩]
      exact hb₂x
    constructor
    · rw [lookupFile_setFile hs1 x, if_neg hxlog]
      exact ha₂x
    · rw [lookupFile_setFile hs2 x, if_neg hxlog]
      exact hb₂x

theorem c6_amended_no_deletion_witness :
    (FSTree.node [] []).wf = true ∧
    (FSTree.node [] [("b.txt", ⟨5, "x"⟩)]).lookupFile ["b.txt"] = some ⟨5, "x"⟩ ∧
    (FSTree.node [] []).existsPath ["b.txt"] = false ∧
    (match sync_folders false (some [".sync_logs/"]) none true "A" "B" "run.log" "0.1" 9
        (FSTree.node [] []) (FSTree.node [] [("b.txt", ⟨5, "x"⟩)]) with
     | .ok r => r.fsA.lookupFile ["b.txt"] = some ⟨5, "x"⟩ ∧
        r.fsB.lookupFile ["b.txt"] = some ⟨5, "x"⟩ ∧
        r.fsB.existsPath ["b.txt"] = true
     | .error _ => False) := by
  refine ⟨rfl, rfl, rfl, ?_⟩
  have h := @c6_amended_no_deletion false (some [".sync_logs/"]) none true "A" "B"
    "run.log" "0.1" 9 (FSTree.node [] []) (FSTree.node [] [("b.txt", ⟨5, "x"⟩)]) _
    rfl rfl rfl
  exact ⟨(h.2.2.2.2 ["b.txt"] ⟨5, "x"⟩ rfl rfl rfl (by decide)).1,
    (h.2.2.2.2 ["b.txt"] ⟨5, "x"⟩ rfl rfl rfl (by decide)).2,
    h.2.1 ["b.txt"] rfl⟩

/-- C4: Run idempotence.  If a run completes on wellformed roots and a
second run with the same roots-and-options arguments (the log file name,
elapsed string and log timestamp may differ - they are environment, not
arguments) starts from the trees the first run left behind, the second
run's decision lists are both empty: nothing is copied.  This holds for
arbitrary options because each copy preserves the source's modification
time, so the second run sees every visible file present on both sides
with no strictly-newer source. -/
theorem c4_run_idempotence {sm : Bool} {igF igE : Option (List String)} {igH : Bool}
    {fA fB ln el ln₂ el₂ : String} {lm lm₂ : Nat} {a b : FSTree} {r1 r2 : SyncResult}
    (hwa : a.wf = true) (hwb : b.wf = true)
    (h1 : sync_folders sm igF igE igH fA fB ln el lm a b = .ok r1)
    (h2 : sync_folders sm igF igE igH fA fB ln₂ el₂ lm₂ r1.fsA r1.fsB = .ok r2) :
    r2.decAB = [] ∧ r2.decBA = [] := by
  rcases sync_folders_ok_inv h1 with
    ⟨b₁, a₁, b₂, a₂, hm1, hm2, hfA, hfB, hp1, hp2, hs1, hs2, hlog1⟩
  rcases sync_folders_ok_inv h2 with
    ⟨b₁', a₁', b₂', a₂', hm1', hm2', hfA', hfB', hp1', hp2', hs1', hs2', hlog2⟩
  have hwb₁ : b₁.wf = true := loop_folder_wf hm1 hwb
  have hwa₁ : a₁.wf = true := loop_folder_wf hm2 hwa
  have hwb₂ : b₂.wf = true := loop_files_wf hp1 hwb₁
  have hwa₂ : a₂.wf = true := loop_files_wf hp2 hwa₁
  have hwA : r1.fsA.wf = true := wf_setFile hs1 hwa₂
  have hwB : r1.fsB.wf = true := wf_setFile hs2 hwb₂
  have hwb₁' : b₁'.wf = true := loop_folder_wf hm1' hwB
  have hwa₁' : a₁'.wf = true := loop_folder_wf hm2' hwA
  have hndA : r1.filesA.Nodup := by rw [hfA]; exact walkTree_nodup hwa₁
  have hnpA : ∀ q ∈ r1.filesA, ∀ f ∈ r1.filesA, q <+: f → q = f := by
    rw [hfA]
    intro q hq f hf hpre
    exact walkTree_no_strict_prefix hwa₁ hq hf hpre
  have hndB : r1.filesB.Nodup := by rw [hfB]; exact walkTree_nodup hwb₁
  have hnpB : ∀ q ∈ r1.filesB, ∀ f ∈ r1.filesB, q <+: f → q = f := by
    rw [hfB]
    intro q hq f hf hpre
    exact walkTree_no_strict_prefix hwb₁ hq hf hpre
  have hlka₂ := loop_files_lookup hp2 hndB hnpB
  have hlkb₂ := loop_files_lookup hp1 hndA hnpA
  have hlkA := lookupFile_setFile hs1
  have hlkB := lookupFile_setFile hs2
  have hlkA₁' := loop_folder_lookup hm2'
  have hlkB₁' := loop_folder_lookup hm1'
  have hP1 : ∀ q, visibleFrom ⟨igF.getD [], igE.getD [], igH⟩ [] q = true →
      (a₂.lookupFile q).isSome = true → b₂.existsPath q = true := by
    intro q hvis hsome
    rw [hlka₂ q] at hsome
    by_cases hc : q ∈ r1.filesB ∧ copyCond sm b₂ a₁ q = true
    · rw [if_pos hc] at hsome
      rcases Option.isSome_iff_exists.mp hsome with ⟨d, hd⟩
      exact existsPath_of_lookupFile hd
    · rw [if_neg hc] at hsome
      rcases Option.isSome_iff_exists.mp hsome with ⟨d, hd⟩
      have hqFA : q ∈ r1.filesA := by rw [hfA]; exact mem_walkTree_of_lookup hd hvis
      by_cases hc1 : copyCond sm a₁ b₁ q = true
      · have hb : b₂.lookupFile q = a₁.lookupFile q := by
          rw [hlkb₂ q, if_pos ⟨hqFA, hc1⟩]
        rw [hd] at hb
        exact existsPath_of_lookupFile hb
      · have hb₁ex : b₁.existsPath q = true := by
          cases hbe : b₁.existsPath q with
          | true => rfl
          | false =>
            exfalso
            apply hc1
            rw [copyCond, hbe]
            rfl
        exact loop_files_exists_mono hp1 q hb₁ex
  have hP2 : ∀ q, visibleFrom ⟨igF.getD [], igE.getD [], igH⟩ [] q = true →
      ∀ ds dt, a₂.lookupFile q = some ds → b₂.lookupFile q = some dt → sm = true →
      ¬ dt.mtime < ds.mtime ∧ ¬ ds.mtime < dt.mtime := by
    intro q hvis ds dt hds hdt hsm
    have hdtB₂ := hdt
    rw [hlka₂ q] at hds
    by_cases hc2 : q ∈ r1.filesB ∧ copyCond sm b₂ a₁ q = true
    · rw [if_pos hc2] at hds
      rw [hds] at hdtB₂
      obtain rfl : ds = dt := Option.some.inj hdtB₂
      exact ⟨Nat.lt_irrefl _, Nat.lt_irrefl _⟩
    · rw [if_neg hc2] at hds
      have hqFA : q ∈ r1.filesA := by rw [hfA]; exact mem_walkTree_of_lookup hds hvis
      rw [hlkb₂ q] at hdt
      by_cases hc1 : copyCond sm a₁ b₁ q = true
      · rw [if_pos ⟨hqFA, hc1⟩] at hdt
        rw [hds] at hdt
        obtain rfl : ds = dt := Option.some.inj hdt
        exact ⟨Nat.lt_irrefl _, Nat.lt_irrefl _⟩
      · have hif : ¬(q ∈ r1.filesA ∧ copyCond sm a₁ b₁ q = true) := fun hcc => hc1 hcc.2
        rw [if_neg hif] at hdt
        have hcf1 : copyCond sm a₁ b₁ q = false := by
          cases hcv : copyCond sm a₁ b₁ q with
          | false => rfl
          | true => exact absurd hcv hc1
        rw [copyCond, hds, hdt, hsm] at hcf1
        simp only [Bool.or_eq_false_iff, Bool.true_and, decide_eq_false_iff_not] at hcf1
        have hqFB : q ∈ r1.filesB := by rw [hfB]; exact mem_walkTree_of_lookup hdt hvis
        have hcf2 : copyCond sm b₂ a₁ q = false := by
          cases hcv : copyCond sm b₂ a₁ q with
          | false => rfl
          | true => exact absurd ⟨hqFB, hcv⟩ hc2
        rw [copyCond, hdtB₂, hds, hsm] at hcf2
        simp only [Bool.or_eq_false_iff, Bool.true_and, decide_eq_false_iff_not] at hcf2
        exact ⟨hcf1.2, hcf2.2⟩
  have hP3 : ∀ q, visibleFrom ⟨igF.getD [], igE.getD [], igH⟩ [] q = true →
      (b₂.lookupFile q).isSome = true → a₂.existsPath q = true := by
    intro q hvis hsome
    rw [hlkb₂ q] at hsome
    by_cases hc : q ∈ r1.filesA ∧ copyCond sm a₁ b₁ q = true
    · rw [if_pos hc] at hsome
      rcases Option.isSome_iff_exists.mp hsome with ⟨d, hd⟩
      exact loop_files_exists_mono hp2 q (existsPath_of_lookupFile hd)
    · rw [if_neg hc] at hsome
      rcases Option.isSome_iff_exists.mp hsome with ⟨d, hd⟩
      have hqFB : q ∈ r1.filesB := by rw [hfB]; exact mem_walkTree_of_lookup hd hvis
      by_cases hc2 : copyCond sm b₂ a₁ q = true
      · have hb₂ : b₂.lookupFile q = some d := by
          rw [hlkb₂ q, if_neg hc]
          exact hd
        have ha₂ : a₂.lookupFile q = some d := by
          rw [hlka₂ q, if_pos ⟨hqFB, hc2⟩]
          exact hb₂
        exact existsPath_of_lookupFile ha₂
      · have ha₁ex : a₁.existsPath q = true := by
          cases hbe : a₁.existsPath q with
          | true => rfl
          | false =>
            exfalso
            apply hc2
            rw [copyCond, hbe]
            rfl
        exact loop_files_exists_mono hp2 q ha₁ex
  have hO1 : ∀ f ∈ r2.filesA, b₁'.existsPath f = true ∧
      (sm = true → ∀ ds dt, a₁'.lookupFile f = some ds → b₁'.lookupFile f = some dt →
        ¬ dt.mtime < ds.mtime) := by
    intro f hf
    rw [hfA'] at hf
    have hvis := visibleFrom_of_mem_walkTree hf
    have hsome := lookup_isSome_of_mem_walkTree hwa₁' hf
    rw [hlkA₁' f, hlkA f] at hsome
    by_cases hfl : f = logPath ln
    · constructor
      · have hBl : r1.fsB.lookupFile f = some ⟨lm, r1.log⟩ := by
          rw [hlkB f, if_pos hfl]
        exact loop_folder_exists_mono hm1' f (existsPath_of_lookupFile hBl)
      · intro hsm ds dt hds hdt
        rw [hlkA₁' f, hlkA f, if_pos hfl] at hds
        rw [hlkB₁' f, hlkB f, if_pos hfl] at hdt
        obtain rfl : ds = ⟨lm, r1.log⟩ := (Option.some.inj hds).symm
        obtain rfl : dt = ⟨lm, r1.log⟩ := (Option.some.inj hdt).symm
        exact Nat.lt_irrefl lm
    · rw [if_neg hfl] at hsome
      have hb₂ex := hP1 f hvis hsome
      constructor
      · exact loop_folder_exists_mono hm1' f (existsPath_setFile_mono hs2 hb₂ex)
      · intro hsm ds dt hds hdt
        rw [hlkA₁' f, hlkA f, if_neg hfl] at hds
        rw [hlkB₁' f, hlkB f, if_neg hfl] at hdt
        exact (hP2 f hvis ds dt hds hdt hsm).1
  have hO2 : ∀ f ∈ r2.filesB, a₁'.existsPath f = true ∧
      (sm = true → ∀ ds dt, b₁'.lookupFile f = some ds → a₁'.lookupFile f = some dt →
        ¬ dt.mtime < ds.mtime) := by
    intro f hf
    rw [hfB'] at hf
    have hvis := visibleFrom_of_mem_walkTree hf
    have hsome := lookup_isSome_of_mem_walkTree hwb₁' hf
    rw [hlkB₁' f, hlkB f] at hsome
    by_cases hfl : f = logPath ln
    · constructor
      · have hAl : r1.fsA.lookupFile f = some ⟨lm, r1.log⟩ := by
          rw [hlkA f, if_pos hfl]
        exact loop_folder_exists_mono hm2' f (existsPath_of_lookupFile hAl)
      · intro hsm ds dt hds hdt
        rw [hlkB₁' f, hlkB f, if_pos hfl] at hds
        rw [hlkA₁' f, hlkA f, if_pos hfl] at hdt
        obtain rfl : ds = ⟨lm, r1.log⟩ := (Option.some.inj hds).symm
        obtain rfl : dt = ⟨lm, r1.log⟩ := (Option.some.inj hdt).symm
        exact Nat.lt_irrefl lm
    · rw [if_neg hfl] at hsome
      have ha₂ex := hP3 f hvis hsome
      constructor
      · exact loop_folder_exists_mono hm2' f (existsPath_setFile_mono hs1 ha₂ex)
      · intro hsm ds dt hds hdt
        rw [hlkB₁' f, hlkB f, if_neg hfl] at hds
        rw [hlkA₁' f, hlkA f, if_neg hfl] at hdt
        exact (hP2 f hvis dt ds hdt hds hsm).2
  rcases loop_files_skip_all hp1' hO1 with ⟨hdec1, hb₂eq⟩
  subst hb₂eq
  rcases loop_files_skip_all hp2' hO2 with ⟨hdec2, _⟩
  exact ⟨hdec1, hdec2⟩

set_option maxRecDepth 8000 in
theorem c4_run_idempotence_witness :
    (match sync_folders true (some [".sync_logs/"]) none true "A" "B" "run.log" "0.1" 9
        (FSTree.node [] [("a.txt", ⟨5, "x"⟩)]) (FSTree.node [] []) with
     | .ok r1 =>
        (match sync_folders true (some [".sync_logs/"]) none true "A" "B" "run2.log" "0.2" 11
            r1.fsA r1.fsB with
         | .ok r2 => r2.decAB = [] ∧ r2.decBA = []
         | .error _ => False)
     | .error _ => False) := by
  exact @c4_run_idempotence true (some [".sync_logs/"]) none true "A" "B" "run.log" "0.1"
    "run2.log" "0.2" 9 11 (FSTree.node [] [("a.txt", ⟨5, "x"⟩)]) (FSTree.node [] []) _ _
    rfl rfl rfl rfl
